import Mathlib

/-!
Verification of the JustSync synchronization engine.

We give a shallow embedding of the core data model and operations:
the rope content view (as `List Char`), the LSP positional types
(`lsp.rs`), the diff engine (`diff.rs: calculate_edits`), and the
per-document synchronization state (`state.rs: Document`, `Workspace`).

External libraries are embedded at the level of their documented
contracts:
  * `ropey::Rope` is a character sequence; its line/char index
    conversions are modelled over `List Char` with lines delimited
    by the newline character.
  * `diamond_types::list::ListCRDT` is an operation-based list CRDT:
    the oplog is a set of tagged insert/delete operations, merging is
    set union (idempotent, commutative), and the branch content is a
    deterministic function of the operation set.  We realize this
    contract with an explicit identifier-ordered CRDT in which every
    inserted character carries a totally ordered identifier tagged by
    its creating agent and per-agent sequence number.
  * `dissimilar::diff` is a character-level diff returning chunks
    whose Equal/Delete parts concatenate to the old string and whose
    Equal/Insert parts concatenate to the new string.
-/

/-! ## LSP data model (`src/lsp.rs`) -/

/-- `lsp.rs: Position` — line/character pair, counted in Unicode scalar values. -/
structure Position where
  line : Nat
  character : Nat
deriving DecidableEq, Repr

/-- `lsp.rs: Range` — start/end positions. -/
structure Range where
  start : Position
  «end» : Position
deriving DecidableEq, Repr

/-- `lsp.rs: TextEdit` — a range plus replacement text. -/
structure TextEdit where
  range : Range
  new_text : List Char
deriving DecidableEq, Repr

/-- `lsp.rs: TextDocumentContentChangeEvent` — an optional range plus text. -/
structure TextDocumentContentChangeEvent where
  range : Option Range
  text : List Char
deriving DecidableEq, Repr

/-! ## Rope model (contract of `ropey::Rope` over `List Char`)

Lines are delimited by the newline character; `len_lines` is one more
than the number of newlines, `line_to_char` gives the character index
of the start of a line, and `char_to_line` gives the line containing a
character index (the last line for the one-past-the-end index). -/

/-- `Rope::len_chars`. -/
def lenChars (rope : List Char) : Nat := rope.length

/-- `Rope::len_lines` — number of newline characters plus one. -/
def lenLines (rope : List Char) : Nat := rope.count '\n' + 1

/-- `Rope::line_to_char` — character index of the first character of a line
(total model; in-domain for line indices at most `lenLines`). -/
def lineToChar : List Char → Nat → Nat
  | _, 0 => 0
  | [], _ + 1 => 0
  | c :: rest, i + 1 =>
    if c = '\n' then 1 + lineToChar rest i else 1 + lineToChar rest (i + 1)

/-- `Rope::char_to_line` — the line containing a character index:
the number of newlines strictly before that index. -/
def charToLine (rope : List Char) (charIdx : Nat) : Nat :=
  (rope.take charIdx).count '\n'

/-! ## Diff engine (`src/diff.rs`) -/

/-- `diff.rs: offset_to_position` — character index to line/column. -/
def offset_to_position (rope : List Char) (charIdx : Nat) : Position :=
  let lineIdx := charToLine rope charIdx
  let lineStartChar := lineToChar rope lineIdx
  { line := lineIdx, character := charIdx - lineStartChar }

/-- The inverse translation used when a `Position` is interpreted in a given
rope: `line_to_char(line) + character` (as in the test helper
`position_to_offset` in `diff.rs`). -/
def position_to_offset (rope : List Char) (pos : Position) : Nat :=
  lineToChar rope pos.line + pos.character

/-- `dissimilar::Chunk`. -/
inductive Chunk where
  | equal (text : List Char)
  | delete (text : List Char)
  | insert (text : List Char)
deriving DecidableEq, Repr

/-- Longest common leading run of two character sequences
(`old.chars().zip(new.chars()).take_while(|(a,b)| a == b).count()`). -/
def commonPfxLen (a b : List Char) : Nat :=
  ((a.zip b).takeWhile (fun p => p.1 = p.2)).length

/-- Contract model of `dissimilar::diff`: a character-level diff of the two
middles.  Only the chunk-decomposition contract is relevant to the
program: the Equal/Delete texts concatenate to the first argument and the
Equal/Insert texts concatenate to the second; all chunk texts are
non-empty.  We realize it by splitting off the common prefix. -/
def dissimilarDiff (a b : List Char) : List Chunk :=
  let p := commonPfxLen a b
  let common := a.take p
  let aRest := a.drop p
  let bRest := b.drop p
  (if common ≠ [] then [Chunk.equal common] else []) ++
    (if aRest ≠ [] then [Chunk.delete aRest] else []) ++
      (if bRest ≠ [] then [Chunk.insert bRest] else [])

/-- The chunk-emission loop of `calculate_edits` (`diff.rs` lines 75-117):
walk the chunks keeping a cursor into the old sequence; Equal advances the
cursor, Delete emits a deletion edit and advances, Insert emits an
insertion edit without advancing. -/
def emitChunkEdits (old : List Char) : Nat → List Chunk → List TextEdit
  | _, [] => []
  | currentPos, Chunk.equal text :: rest =>
    emitChunkEdits old (currentPos + text.length) rest
  | currentPos, Chunk.delete text :: rest =>
    { range := { start := offset_to_position old currentPos,
                 «end» := offset_to_position old (currentPos + text.length) },
      new_text := [] } :: emitChunkEdits old (currentPos + text.length) rest
  | currentPos, Chunk.insert text :: rest =>
    { range := { start := offset_to_position old currentPos,
                 «end» := offset_to_position old currentPos },
      new_text := text } :: emitChunkEdits old currentPos rest

/-- `diff.rs: calculate_edits` — ordered list of positional edits
transforming `old` into `new`. -/
def calculate_edits (old new : List Char) : List TextEdit :=
  if old = new then []
  else
    let lenOld := old.length
    let lenNew := new.length
    let prefixLen := commonPfxLen old new
    let commonSuffixLen :=
      (((old.reverse.zip new.reverse).take (min lenOld lenNew - prefixLen)).takeWhile
        (fun p => p.1 = p.2)).length
    let start := prefixLen
    let oldEnd := lenOld - commonSuffixLen
    let newEnd := lenNew - commonSuffixLen
    if start = oldEnd ∧ start ≠ newEnd then
      let insertedText := (new.take newEnd).drop start
      let pos := offset_to_position old start
      [{ range := { start := pos, «end» := pos }, new_text := insertedText }]
    else if start ≠ oldEnd ∧ start = newEnd then
      [{ range := { start := offset_to_position old start,
                    «end» := offset_to_position old oldEnd },
         new_text := [] }]
    else
      let oldMiddle := (old.take oldEnd).drop start
      let newMiddle := (new.take newEnd).drop start
      emitChunkEdits old start (dissimilarDiff oldMiddle newMiddle)

/-! ## Applying edits in the pre-edit coordinate space

A `TextEdit` list produced by the diff engine is positioned in the old
sequence's line/column coordinates.  Applying the ordered list means
resolving every position against the original sequence and splicing; we
realize it by a cursor walk over the old sequence (edits are emitted in
ascending old-sequence order). -/

/-- Apply character-offset edits `(start, end, text)` to the portion of `s`
beginning at absolute offset `cursor`.  Offsets are absolute indices into
the original sequence. -/
def applyEditsChar : Nat → List Char → List (Nat × Nat × List Char) → List Char
  | _, s, [] => s
  | cursor, s, (st, en, t) :: rest =>
    s.take (st - cursor) ++ t ++ applyEditsChar en (s.drop (en - cursor)) rest

/-- Apply a `TextEdit` list to `old`, interpreting every position in `old`'s
pre-edit line/column coordinate space. -/
def applyEdits (old : List Char) (edits : List TextEdit) : List Char :=
  applyEditsChar 0 old
    (edits.map fun e =>
      (position_to_offset old e.range.start, position_to_offset old e.range.«end», e.new_text))

/-! ## Positional round-trip lemmas -/

theorem lineToChar_zero (rope : List Char) : lineToChar rope 0 = 0 := by
  cases rope <;> rfl

theorem lineToChar_cons_nl (rest : List Char) (i : Nat) :
    lineToChar ('\n' :: rest) (i + 1) = 1 + lineToChar rest i := by
  rw [lineToChar]
  simp

theorem lineToChar_cons_ne (c : Char) (rest : List Char) (i : Nat) (h : c ≠ '\n') :
    lineToChar (c :: rest) (i + 1) = 1 + lineToChar rest (i + 1) := by
  rw [lineToChar]
  simp [h]

theorem lineToChar_count_le (rope : List Char) : ∀ i : Nat,
    lineToChar rope ((rope.take i).count '\n') ≤ i := by
  induction rope with
  | nil =>
    intro i
    rcases i with _ | j <;> simp [lineToChar_zero, lineToChar]
  | cons c rest ih =>
    intro i
    rcases i with _ | j
    · simp [lineToChar_zero]
    · by_cases hc : c = '\n'
      · subst hc
        have hcount : (('\n' :: rest).take (j + 1)).count '\n' = (rest.take j).count '\n' + 1 := by
          simp [List.count_cons]
        rw [hcount, lineToChar_cons_nl]
        have := ih j
        omega
      · have hcount : ((c :: rest).take (j + 1)).count '\n' = (rest.take j).count '\n' := by
          simp [List.count_cons, hc]
        rw [hcount]
        rcases hk : (rest.take j).count '\n' with _ | m
        · simp [lineToChar_zero]
        · rw [lineToChar_cons_ne c rest m hc]
          have := ih j
          rw [hk] at this
          omega

theorem position_to_offset_offset_to_position (rope : List Char) (i : Nat) :
    position_to_offset rope (offset_to_position rope i) = i := by
  have h := lineToChar_count_le rope i
  simp only [position_to_offset, offset_to_position, charToLine]
  omega

/-! ## Common prefix and suffix facts -/

theorem takeWhile_take_comm {α : Type} (p : α → Bool) :
    ∀ (l : List α) (k : Nat), (l.take k).takeWhile p = (l.takeWhile p).take k := by
  intro l
  induction l with
  | nil => intro k; simp
  | cons c t ih =>
    intro k
    rcases k with _ | j
    · simp [List.takeWhile]
    · by_cases hc : p c = true
      · simp [List.takeWhile_cons, hc, ih j]
      · simp [List.takeWhile_cons, hc]

theorem take_eq_take_of_takeWhile_zip (a : List Char) : ∀ (b : List Char) (m : Nat),
    m ≤ (((a.zip b).takeWhile fun p => p.1 = p.2).length) → a.take m = b.take m := by
  induction a with
  | nil =>
    intro b m h
    simp at h
    simp [h]
  | cons x xs ih =>
    intro b m h
    rcases b with _ | ⟨y, ys⟩
    · simp at h; simp [h]
    · by_cases hxy : x = y
      · rcases m with _ | k
        · simp
        · subst hxy
          simp [List.takeWhile_cons] at h
          simp [List.take_succ_cons, ih ys k (by omega)]
      · simp [List.takeWhile_cons, hxy] at h
        simp [h]

theorem commonPfxLen_le (a b : List Char) : commonPfxLen a b ≤ min a.length b.length := by
  calc commonPfxLen a b ≤ (a.zip b).length := (List.takeWhile_sublist _).length_le
  _ = min a.length b.length := List.length_zip a b

theorem commonPfxLen_take_eq (a b : List Char) :
    a.take (commonPfxLen a b) = b.take (commonPfxLen a b) :=
  take_eq_take_of_takeWhile_zip a b _ le_rfl

/-! ## Chunk scripts -/

/-- Concatenation of a chunk list's Equal and Delete texts: the old middle. -/
def chunkOld : List Chunk → List Char
  | [] => []
  | Chunk.equal t :: r => t ++ chunkOld r
  | Chunk.delete t :: r => t ++ chunkOld r
  | Chunk.insert _ :: r => chunkOld r

/-- Concatenation of a chunk list's Equal and Insert texts: the new middle. -/
def chunkNew : List Chunk → List Char
  | [] => []
  | Chunk.equal t :: r => t ++ chunkNew r
  | Chunk.delete _ :: r => chunkNew r
  | Chunk.insert t :: r => t ++ chunkNew r

theorem chunkOld_dissimilarDiff (a b : List Char) : chunkOld (dissimilarDiff a b) = a := by
  have hsplit := List.take_append_drop (commonPfxLen a b) a
  simp only [dissimilarDiff]
  split_ifs <;>
    simp_all only [ne_eq, not_not, chunkOld, List.append_nil, List.nil_append,
      List.cons_append, List.append_assoc]

theorem chunkNew_dissimilarDiff (a b : List Char) : chunkNew (dissimilarDiff a b) = b := by
  have hsplit := List.take_append_drop (commonPfxLen a b) b
  have hpre := commonPfxLen_take_eq a b
  simp only [dissimilarDiff]
  split_ifs <;>
    simp_all only [ne_eq, not_not, chunkNew, List.append_nil, List.nil_append,
      List.cons_append, List.append_assoc]

theorem drop_eq_drop_of_rev_take_eq (a b : List Char) (k : Nat)
    (h : a.reverse.take k = b.reverse.take k) :
    a.drop (a.length - k) = b.drop (b.length - k) := by
  have ha : a.drop (a.length - k) = a.rtake k := rfl
  have hb : b.drop (b.length - k) = b.rtake k := rfl
  rw [ha, hb, List.rtake_eq_reverse_take_reverse, List.rtake_eq_reverse_take_reverse, h]

theorem take_middle (l : List Char) {P E : Nat} (h : P ≤ E) :
    l.take P ++ (l.take E).drop P = l.take E := by
  conv_rhs => rw [← List.take_append_drop P (l.take E)]
  rw [List.take_take, min_eq_left h]

/-- Character-offset counterpart of `emitChunkEdits`: the same walk emitting
`(start, end, text)` offset triples instead of positional edits. -/
def emitChunkOffsets : Nat → List Chunk → List (Nat × Nat × List Char)
  | _, [] => []
  | pos, Chunk.equal t :: rest => emitChunkOffsets (pos + t.length) rest
  | pos, Chunk.delete t :: rest =>
    (pos, pos + t.length, []) :: emitChunkOffsets (pos + t.length) rest
  | pos, Chunk.insert t :: rest => (pos, pos, t) :: emitChunkOffsets pos rest

theorem emitChunkEdits_map (old : List Char) : ∀ (pos : Nat) (ch : List Chunk),
    (emitChunkEdits old pos ch).map (fun e =>
      (position_to_offset old e.range.start, position_to_offset old e.range.«end», e.new_text))
      = emitChunkOffsets pos ch := by
  intro pos ch
  induction ch generalizing pos with
  | nil => simp [emitChunkEdits, emitChunkOffsets]
  | cons head rest ih =>
    cases head <;>
      simp [emitChunkEdits, emitChunkOffsets, ih, position_to_offset_offset_to_position]

theorem applyEditsChar_emitChunkOffsets (ch : List Chunk) :
    ∀ (pos : Nat) (pre suf : List Char),
    applyEditsChar pos (pre ++ chunkOld ch ++ suf) (emitChunkOffsets (pos + pre.length) ch)
      = pre ++ chunkNew ch ++ suf := by
  induction ch with
  | nil =>
    intro pos pre suf
    simp [chunkOld, chunkNew, emitChunkOffsets, applyEditsChar]
  | cons head rest ih =>
    intro pos pre suf
    cases head with
    | equal t =>
      have h := ih pos (pre ++ t) suf
      simp only [chunkOld, chunkNew, emitChunkOffsets, List.append_assoc,
        List.length_append] at h ⊢
      rw [Nat.add_assoc]
      exact h
    | delete t =>
      simp only [chunkOld, chunkNew, emitChunkOffsets, applyEditsChar]
      have h1 : pos + pre.length - pos = pre.length := by omega
      have h2 : pos + pre.length + t.length - pos = pre.length + t.length := by omega
      rw [h1, h2]
      have htake : (pre ++ ((t ++ chunkOld rest) ++ suf)).take pre.length = pre :=
        List.take_left pre _
      have hdrop : (pre ++ ((t ++ chunkOld rest) ++ suf)).drop (pre.length + t.length)
          = chunkOld rest ++ suf := by
        have hS : pre ++ ((t ++ chunkOld rest) ++ suf) = (pre ++ t) ++ (chunkOld rest ++ suf) := by
          simp
        rw [hS, ← List.length_append]
        exact List.drop_left _ _
      have hrec := ih (pos + pre.length + t.length) [] suf
      simp only [List.nil_append, List.length_nil, Nat.add_zero] at hrec
      simp only [List.append_assoc] at htake hdrop ⊢
      rw [htake, hdrop, hrec]
      try simp
    | insert t =>
      simp only [chunkOld, chunkNew, emitChunkOffsets, applyEditsChar]
      have h1 : pos + pre.length - pos = pre.length := by omega
      rw [h1]
      have htake : (pre ++ (chunkOld rest ++ suf)).take pre.length = pre :=
        List.take_left pre _
      have hdrop : (pre ++ (chunkOld rest ++ suf)).drop pre.length = chunkOld rest ++ suf :=
        List.drop_left pre _
      have hrec := ih (pos + pre.length) [] suf
      simp only [List.nil_append, List.length_nil, Nat.add_zero] at hrec
      simp only [List.append_assoc] at htake hdrop ⊢
      rw [htake, hdrop, hrec]
      try simp

theorem csuf_le_of_take (old new : List Char) (K : Nat) :
    ((((old.reverse.zip new.reverse).take K).takeWhile (fun p => p.1 = p.2)).length) ≤ K := by
  rw [takeWhile_take_comm]
  simp [List.length_take]

theorem suffix_drop_eq (old new : List Char) (K : Nat) :
    old.drop (old.length -
        ((((old.reverse.zip new.reverse).take K).takeWhile (fun p => p.1 = p.2)).length))
      = new.drop (new.length -
        ((((old.reverse.zip new.reverse).take K).takeWhile (fun p => p.1 = p.2)).length)) := by
  apply drop_eq_drop_of_rev_take_eq
  apply take_eq_take_of_takeWhile_zip
  rw [takeWhile_take_comm]
  simp [List.length_take]

/-- C1. For every pair of character sequences `(old, new)`, applying the
ordered list of TextEdits returned by `calculate_edits old new` to `old`
(positions interpreted in `old`'s pre-edit line/column coordinate space)
yields exactly `new`; in particular `calculate_edits old old` returns the
empty list. -/
theorem C1_diff_roundtrip (old new : List Char) :
    applyEdits old (calculate_edits old new) = new ∧ calculate_edits old old = [] := by
  constructor
  case right => simp [calculate_edits]
  by_cases heq : old = new
  · subst heq
    simp [calculate_edits, applyEdits, applyEditsChar]
  · simp only [calculate_edits, if_neg heq]
    set P := commonPfxLen old new with hPdef
    set K := min old.length new.length - P with hKdef
    set csuf :=
      (((old.reverse.zip new.reverse).take K).takeWhile (fun p => p.1 = p.2)).length with hcsdef
    have hPmin : P ≤ min old.length new.length := commonPfxLen_le old new
    have hcsK : csuf ≤ K := csuf_le_of_take old new K
    have hminO : min old.length new.length ≤ old.length := min_le_left _ _
    have hminN : min old.length new.length ≤ new.length := min_le_right _ _
    have hPO : P + csuf ≤ old.length := by omega
    have hPN : P + csuf ≤ new.length := by omega
    have hpre : old.take P = new.take P := commonPfxLen_take_eq old new
    have hsuf : old.drop (old.length - csuf) = new.drop (new.length - csuf) :=
      suffix_drop_eq old new K
    split_ifs with hA hB
    · -- pure insertion: start = oldEnd, start ≠ newEnd
      obtain ⟨hA1, _⟩ := hA
      simp only [applyEdits, List.map_cons, List.map_nil,
        position_to_offset_offset_to_position, applyEditsChar]
      simp only [Nat.sub_zero, List.append_nil]
      have hdropP : old.drop P = new.drop (new.length - csuf) := by
        rw [hA1, hsuf]
      rw [hdropP, hpre]
      have hmid : new.take P ++ ((new.take (new.length - csuf)).drop P)
          = new.take (new.length - csuf) := take_middle new (by omega)
      rw [hmid, List.take_append_drop]
    · -- pure deletion: start ≠ oldEnd, start = newEnd
      obtain ⟨_, hB2⟩ := hB
      simp only [applyEdits, List.map_cons, List.map_nil,
        position_to_offset_offset_to_position, applyEditsChar]
      simp only [Nat.sub_zero, List.append_nil, List.nil_append]
      rw [hsuf, hpre, hB2, List.take_append_drop]
    · -- fallback: chunk script over the middles
      rw [applyEdits, emitChunkEdits_map]
      have hlenpre : (old.take P).length = P := by
        rw [List.length_take]
        omega
      have hsplitold : old = old.take P ++ chunkOld (dissimilarDiff
          ((old.take (old.length - csuf)).drop P) ((new.take (new.length - csuf)).drop P))
          ++ old.drop (old.length - csuf) := by
        rw [chunkOld_dissimilarDiff, take_middle old (by omega), List.take_append_drop]
      have hGL := applyEditsChar_emitChunkOffsets
        (dissimilarDiff ((old.take (old.length - csuf)).drop P)
          ((new.take (new.length - csuf)).drop P)) 0 (old.take P)
        (old.drop (old.length - csuf))
      rw [hlenpre, Nat.zero_add, ← hsplitold] at hGL
      rw [hGL, chunkNew_dissimilarDiff, hpre, hsuf, take_middle new (by omega),
        List.take_append_drop]

/-! ## CRDT model (contract of `diamond_types::list::ListCRDT`)

The oplog is a growing collection of character-insert and
character-remove operations.  Every inserted character carries a unique
identifier from a dense totally ordered space; the branch content is
the identifier-sorted sequence of inserted characters that have not
been tombstoned.  Merging a decoded patch is set union of operations,
hence idempotent and commutative; the branch is a pure function of the
operation set, which realizes the documented semantics of
`oplog.decode_and_add` followed by `branch.merge` (fast-forward).
Identifiers are paths of components `(z, agent, seq)`; the final
component of a character's identifier records its creating agent and
that agent's sequence number for the operation, mirroring the
`(agent, seq)` tagging of diamond-types operations. -/

/-- One component of a character identifier. -/
structure Comp where
  z : Int
  agent : String
  seq : Nat
deriving DecidableEq, Repr

/-- A character identifier: a path of components. -/
abbrev CharId := List Comp

/-- Lexicographic strict order on components (agents compared as their
character lists, which keeps the order kernel-computable). -/
def compLt (a b : Comp) : Prop :=
  a.z < b.z ∨ (a.z = b.z ∧
    (a.agent.data < b.agent.data ∨ (a.agent = b.agent ∧ a.seq < b.seq)))

instance compLt.instDec : ∀ a b : Comp, Decidable (compLt a b) := fun a b =>
  inferInstanceAs (Decidable (a.z < b.z ∨ (a.z = b.z ∧
    (a.agent.data < b.agent.data ∨ (a.agent = b.agent ∧ a.seq < b.seq)))))

/-- Strict order on identifiers: lexicographic with a shorter path compared
to the next component of the longer one by the sign of its `z` (a component
with positive `z` lies to the right of its parent, any other to the left). -/
def idLtb : List Comp → List Comp → Bool
  | [], [] => false
  | [], c :: _ => decide (1 ≤ c.z)
  | c :: _, [] => decide (c.z ≤ 0)
  | c :: s, d :: t => if compLt c d then true else if c = d then idLtb s t else false

def idLt (x y : CharId) : Prop := idLtb x y = true

instance idLt.instDec (x y : CharId) : Decidable (idLt x y) :=
  inferInstanceAs (Decidable (idLtb x y = true))

theorem idLt_nil_nil : ¬ idLt [] [] := by simp [idLt, idLtb]

theorem idLt_nil_cons (c : Comp) (t : List Comp) : idLt [] (c :: t) ↔ 1 ≤ c.z := by
  simp [idLt, idLtb]

theorem idLt_cons_nil (c : Comp) (s : List Comp) : idLt (c :: s) [] ↔ c.z ≤ 0 := by
  simp [idLt, idLtb]

theorem idLt_cons_cons (c d : Comp) (s t : List Comp) :
    idLt (c :: s) (d :: t) ↔ compLt c d ∨ (c = d ∧ idLt s t) := by
  by_cases h1 : compLt c d
  · simp [idLt, idLtb, h1]
  · by_cases h2 : c = d
    · simp [idLt, idLtb, h1, h2]
    · simp [idLt, idLtb, h1, h2]

theorem compLt_irrefl (a : Comp) : ¬ compLt a a := by
  simp [compLt]

theorem compLt_asymm {a b : Comp} (h1 : compLt a b) (h2 : compLt b a) : False := by
  rcases h1 with hz | ⟨hz, h1'⟩
  · rcases h2 with hz' | ⟨hz', _⟩ <;> omega
  · rcases h2 with hz' | ⟨hz', h2'⟩
    · omega
    · rcases h1' with ha | ⟨ha, hs⟩
      · rcases h2' with ha' | ⟨ha', _⟩
        · exact absurd ha' (lt_asymm ha)
        · rw [ha'] at ha
          exact lt_irrefl _ ha
      · rcases h2' with ha' | ⟨ha', hs'⟩
        · rw [ha] at ha'
          exact lt_irrefl _ ha'
        · omega

theorem compLt_trans {a b c : Comp} (h1 : compLt a b) (h2 : compLt b c) : compLt a c := by
  rcases h1 with hz | ⟨hz, h1'⟩
  · rcases h2 with hz' | ⟨hz', _⟩
    · exact Or.inl (lt_trans hz hz')
    · exact Or.inl (by omega)
  · rcases h2 with hz' | ⟨hz', h2'⟩
    · exact Or.inl (by omega)
    · refine Or.inr ⟨by omega, ?_⟩
      rcases h1' with ha | ⟨ha, hs⟩
      · rcases h2' with ha' | ⟨ha', _⟩
        · exact Or.inl (lt_trans ha ha')
        · left
          rw [← ha']
          exact ha
      · rcases h2' with ha' | ⟨ha', hs'⟩
        · left
          rw [ha]
          exact ha'
        · exact Or.inr ⟨ha.trans ha', by omega⟩

theorem compLt_connex {a b : Comp} (h : a ≠ b) : compLt a b ∨ compLt b a := by
  rcases lt_trichotomy a.z b.z with hz | hz | hz
  · exact Or.inl (Or.inl hz)
  · rcases lt_trichotomy a.agent.data b.agent.data with ha | ha | ha
    · exact Or.inl (Or.inr ⟨hz, Or.inl ha⟩)
    · have hag : a.agent = b.agent := by
        rcases a with ⟨az, ⟨ad⟩, an⟩
        rcases b with ⟨bz, ⟨bd⟩, bn⟩
        simp only at ha
        rw [ha]
      rcases lt_trichotomy a.seq b.seq with hs | hs | hs
      · exact Or.inl (Or.inr ⟨hz, Or.inr ⟨hag, hs⟩⟩)
      · exact absurd (by cases a; cases b; simp_all) h
      · exact Or.inr (Or.inr ⟨hz.symm, Or.inr ⟨hag.symm, hs⟩⟩)
    · exact Or.inr (Or.inr ⟨hz.symm, Or.inl ha⟩)
  · exact Or.inr (Or.inl hz)

theorem idLt_irrefl : ∀ x : CharId, ¬ idLt x x := by
  intro x
  induction x with
  | nil => exact idLt_nil_nil
  | cons c s ih =>
    rw [idLt_cons_cons]
    rintro (h | ⟨-, h⟩)
    · exact compLt_irrefl c h
    · exact ih h

theorem idLt_asymm : ∀ x y : CharId, idLt x y → idLt y x → False := by
  intro x
  induction x with
  | nil =>
    intro y h1 h2
    cases y with
    | nil => exact idLt_nil_nil h1
    | cons c t =>
      rw [idLt_nil_cons] at h1
      rw [idLt_cons_nil] at h2
      omega
  | cons c s ih =>
    intro y h1 h2
    cases y with
    | nil =>
      rw [idLt_cons_nil] at h1
      rw [idLt_nil_cons] at h2
      omega
    | cons d t =>
      rw [idLt_cons_cons] at h1 h2
      rcases h1 with h1 | ⟨h1, h1'⟩
      · rcases h2 with h2 | ⟨h2, h2'⟩
        · exact compLt_asymm h1 h2
        · subst h2
          exact compLt_irrefl _ h1
      · subst h1
        rcases h2 with h2 | ⟨-, h2'⟩
        · exact compLt_irrefl _ h2
        · exact ih t h1' h2'

theorem idLt_trans : ∀ x y z : CharId, idLt x y → idLt y z → idLt x z := by
  intro x
  induction x with
  | nil =>
    intro y z h1 h2
    cases y with
    | nil => exact absurd h1 idLt_nil_nil
    | cons d t =>
      rw [idLt_nil_cons] at h1
      cases z with
      | nil =>
        rw [idLt_cons_nil] at h2
        omega
      | cons e u =>
        rw [idLt_cons_cons] at h2
        rw [idLt_nil_cons]
        rcases h2 with h2 | ⟨h2, -⟩
        · rcases h2 with hz | ⟨hz, -⟩ <;> omega
        · rw [← h2]
          omega
  | cons c s ih =>
    intro y z h1 h2
    cases y with
    | nil =>
      rw [idLt_cons_nil] at h1
      cases z with
      | nil => exact absurd h2 idLt_nil_nil
      | cons e u =>
        rw [idLt_nil_cons] at h2
        rw [idLt_cons_cons]
        exact Or.inl (Or.inl (by omega))
    | cons d t =>
      rw [idLt_cons_cons] at h1
      cases z with
      | nil =>
        rw [idLt_cons_nil] at h2
        rw [idLt_cons_nil]
        rcases h1 with h1 | ⟨h1, -⟩
        · rcases h1 with hz | ⟨hz, -⟩ <;> omega
        · rw [h1]
          omega
      | cons e u =>
        rw [idLt_cons_cons] at h2 ⊢
        rcases h1 with h1 | ⟨h1, h1'⟩
        · rcases h2 with h2 | ⟨h2, -⟩
          · exact Or.inl (compLt_trans h1 h2)
          · exact Or.inl (h2 ▸ h1)
        · subst h1
          rcases h2 with h2 | ⟨h2, h2'⟩
          · exact Or.inl h2
          · exact Or.inr ⟨h2, ih t u h1' h2'⟩

theorem idLt_connex : ∀ x y : CharId, x ≠ y → idLt x y ∨ idLt y x := by
  intro x
  induction x with
  | nil =>
    intro y h
    cases y with
    | nil => exact absurd rfl h
    | cons c t =>
      rw [idLt_nil_cons, idLt_cons_nil]
      omega
  | cons c s ih =>
    intro y h
    cases y with
    | nil =>
      rw [idLt_nil_cons, idLt_cons_nil]
      omega
    | cons d t =>
      rw [idLt_cons_cons, idLt_cons_cons]
      by_cases hcd : c = d
      · subst hcd
        have hst : s ≠ t := fun hh => h (by rw [hh])
        rcases ih t hst with h' | h'
        · exact Or.inl (Or.inr ⟨rfl, h'⟩)
        · exact Or.inr (Or.inr ⟨rfl, h'⟩)
      · rcases compLt_connex hcd with h' | h'
        · exact Or.inl (Or.inl h')
        · exact Or.inr (Or.inl h')

/-- Total order used to linearize inserted characters: identifier order with
a character tiebreak (identifiers of distinct operations are distinct, so the
tiebreak only matters for degenerate op sets). -/
def pairLe (p q : CharId × Char) : Prop :=
  idLt p.1 q.1 ∨ (p.1 = q.1 ∧ p.2 ≤ q.2)

instance pairLe.instDec : DecidableRel pairLe := fun p q =>
  inferInstanceAs (Decidable (idLt p.1 q.1 ∨ (p.1 = q.1 ∧ p.2 ≤ q.2)))

instance pairLe.instTotal : IsTotal (CharId × Char) pairLe := by
  constructor
  intro p q
  by_cases h : p.1 = q.1
  · rcases le_total p.2 q.2 with h' | h'
    · exact Or.inl (Or.inr ⟨h, h'⟩)
    · exact Or.inr (Or.inr ⟨h.symm, h'⟩)
  · rcases idLt_connex p.1 q.1 h with h' | h'
    · exact Or.inl (Or.inl h')
    · exact Or.inr (Or.inl h')

instance pairLe.instTrans : IsTrans (CharId × Char) pairLe := by
  constructor
  rintro p q r (h1 | ⟨h1, h1'⟩) (h2 | ⟨h2, h2'⟩)
  · exact Or.inl (idLt_trans _ _ _ h1 h2)
  · exact Or.inl (h2 ▸ h1)
  · exact Or.inl (h1 ▸ h2)
  · exact Or.inr ⟨h1.trans h2, h1'.trans h2'⟩

instance pairLe.instAntisymm : IsAntisymm (CharId × Char) pairLe := by
  constructor
  rintro ⟨i, a⟩ ⟨j, b⟩ (h1 | ⟨h1, h1'⟩) (h2 | ⟨h2, h2'⟩)
  · exact absurd h2 (fun hh => idLt_asymm _ _ h1 hh)
  · exact absurd h1 (h2 ▸ idLt_irrefl j)
  · exact absurd h2 (h1 ▸ idLt_irrefl i)
  · simp only at h1 h1' h2 h2'
    simp [h1, le_antisymm h1' h2']

/-! ## Oplog (`ListCRDT` state) -/

/-- A CRDT operation: insert a character with its identifier, or tombstone
(remove) the character with the target identifier. -/
inductive Op where
  | insert (id : CharId) (ch : Char)
  | remove (target : CharId)
deriving DecidableEq, Repr

/-- The operation log: a list with set semantics (duplicates are ignored by
evaluation, merging never duplicates an element). -/
abbrev Oplog := List Op

/-- The insert operations of a log, as (identifier, character) pairs. -/
def insPairs (ops : Oplog) : List (CharId × Char) :=
  ops.filterMap fun o =>
    match o with
    | Op.insert i c => some (i, c)
    | Op.remove _ => none

/-- The tombstoned identifiers of a log. -/
def tombs (ops : Oplog) : List CharId :=
  ops.filterMap fun o =>
    match o with
    | Op.insert _ _ => none
    | Op.remove t => some t

/-- All insert pairs, deduplicated and sorted in identifier order. -/
def sortedPairs (ops : Oplog) : List (CharId × Char) :=
  List.insertionSort pairLe (insPairs ops).dedup

/-- The live (non-tombstoned) pairs, in identifier order. -/
def livePairs (ops : Oplog) : List (CharId × Char) :=
  (sortedPairs ops).filter fun p => decide (p.1 ∉ tombs ops)

/-- `crdt.branch.content()` — the branch text determined by the op set. -/
def branchContent (ops : Oplog) : List Char :=
  (livePairs ops).map Prod.snd

/-- `oplog.decode_and_add` on already-decoded operations: set union, adding
only the operations not already present (idempotent, commutative up to the
element set). -/
def mergeOps (x y : Oplog) : Oplog :=
  y.foldl (fun acc op => if op ∈ acc then acc else acc ++ [op]) x

/-- Allocate a fresh identifier strictly between `lo` and `hi`
(`none` is the corresponding infinity), tagged by the creating agent and
its sequence number. -/
def allocId (lo hi : Option CharId) (a : String) (n : Nat) : CharId :=
  match lo, hi with
  | none, none => [⟨1, a, n⟩]
  | some p, none => p ++ [⟨1, a, n⟩]
  | none, some q => q ++ [⟨-1, a, n⟩]
  | some p, some q =>
    if q.length ≤ p.length then p ++ [⟨1, a, n⟩] else q ++ [⟨-1, a, n⟩]

/-- The sequence-number bound an operation imposes for an agent: one past
the sequence number of an insert identifier tagged by that agent. -/
def seqBound (o : Op) (a : String) : Nat :=
  match o with
  | Op.insert i _ =>
    match i.getLast? with
    | some c => if c.agent = a then c.seq + 1 else 0
    | none => 0
  | Op.remove _ => 0

/-- The next sequence number of an agent: one past the largest sequence
number the agent has used in the log (diamond-types assigns per-agent
sequence numbers from its oplog state). -/
def nextSeq (ops : Oplog) (a : String) : Nat :=
  ops.foldl (fun m o => max m (seqBound o a)) 0

/-- `crdt.insert` for one character at a branch position: allocate an
identifier between the live neighbours and append the insert op. -/
def crdtInsertChar (ops : Oplog) (a : String) (pos : Nat) (ch : Char) : Oplog :=
  let L := livePairs ops
  let lo := (L.take pos).getLast?.map Prod.fst
  let hi := (L.get? pos).map Prod.fst
  ops ++ [Op.insert (allocId lo hi a (nextSeq ops a)) ch]

/-- `crdt.insert` of a text at a branch position (character by character). -/
def crdtInsertText : Oplog → String → Nat → List Char → Oplog
  | ops, _, _, [] => ops
  | ops, a, pos, ch :: rest => crdtInsertText (crdtInsertChar ops a pos ch) a (pos + 1) rest

/-- `crdt.delete(agent, s..e)`: tombstone the live characters at branch
positions `s..e`. -/
def crdtDelete (ops : Oplog) (s e : Nat) : Oplog :=
  ops ++ (((livePairs ops).take e).drop s).map fun p => Op.remove p.1

/-! ## Document (`src/state.rs`) -/

/-- Patch bytes, at the granularity the CRDT contract exposes: a byte string
either decodes to a set of operations (`some ops`, the encoding of that op
set) or fails to decode (`none`). -/
abbrev PatchBytes := Option Oplog

/-- `oplog.encode(EncodeOptions::default())` — a self-contained encoding of
the full log. -/
def encodeOplog (ops : Oplog) : PatchBytes := some ops

/-- `state.rs: Document` — per-file sync state: the rope view, the CRDT
oplog, the local agent, and the echo-guard counter. -/
structure Document where
  uri : String
  content : List Char
  ops : Oplog
  agent_id : String
  pending_remote_updates : Nat
deriving DecidableEq, Repr

/-- `Document::new` (state.rs lines 93-109): seed the CRDT with the initial
content under the reserved agent `"init"` when non-empty. -/
def Document.new (uri : String) (initial_content : List Char) (agent_id : String) : Document :=
  { uri := uri,
    content := initial_content,
    ops := if initial_content = [] then [] else crdtInsertText [] "init" 0 initial_content,
    agent_id := agent_id,
    pending_remote_updates := 0 }

/-- `Document::get_offsets_from_rope` (state.rs lines 210-222): clamp the
line indices to the last line, then clamp the resulting absolute character
indices to the rope length. -/
def get_offsets_from_rope (rope : List Char) (range : Range) : Nat × Nat :=
  let len_lines := lenLines rope
  let start_line := min range.start.line (len_lines - 1)
  let end_line := min range.«end».line (len_lines - 1)
  let start_char_idx := lineToChar rope start_line + range.start.character
  let end_char_idx := lineToChar rope end_line + range.«end».character
  let len_chars := lenChars rope
  (min start_char_idx len_chars, min end_char_idx len_chars)

/-- `Document::apply_change_to_rope` (state.rs lines 225-241). -/
def apply_change_to_rope (rope : List Char) (change : TextDocumentContentChangeEvent) :
    List Char :=
  match change.range with
  | some range =>
    let se := get_offsets_from_rope rope range
    let afterRemove := if se.1 < se.2 then rope.take se.1 ++ rope.drop se.2 else rope
    if change.text ≠ [] then afterRemove.take se.1 ++ change.text ++ afterRemove.drop se.1
    else afterRemove
  | none => change.text

/-- One iteration of the change loop in `apply_local_changes`
(state.rs lines 131-149): apply a ranged change to the CRDT (delete then
insert) and mirror every change on the rope; track whether a patch-worthy
(ranged) change was seen. -/
def applyLocalStep (d : Document) (change : TextDocumentContentChangeEvent) (pg : Bool) :
    Document × Bool :=
  match change.range with
  | some range =>
    let se := get_offsets_from_rope d.content range
    let ops1 := if se.1 < se.2 then crdtDelete d.ops se.1 se.2 else d.ops
    let ops2 :=
      if change.text ≠ [] then crdtInsertText ops1 d.agent_id se.1 change.text else ops1
    ({ d with ops := ops2, content := apply_change_to_rope d.content change }, true)
  | none => ({ d with content := apply_change_to_rope d.content change }, pg)

/-- The change loop of `apply_local_changes`. -/
def applyLocalLoop : Document → List TextDocumentContentChangeEvent → Bool → Document × Bool
  | d, [], pg => (d, pg)
  | d, c :: rest, pg =>
    let step := applyLocalStep d c pg
    applyLocalLoop step.1 rest step.2

/-- `Document::apply_local_changes` (state.rs lines 118-161). -/
def Document.apply_local_changes (d : Document)
    (changes : List TextDocumentContentChangeEvent) : Document × Option PatchBytes :=
  if 0 < d.pending_remote_updates then
    ({ d with pending_remote_updates := d.pending_remote_updates - 1 }, none)
  else
    let res := applyLocalLoop d changes false
    if res.2 then (res.1, some (encodeOplog res.1.ops)) else (res.1, none)

/-- `Document::apply_remote_patch` (state.rs lines 169-203). -/
def Document.apply_remote_patch (d : Document) (patch : PatchBytes) :
    Document × Option (List TextEdit) :=
  match patch with
  | none => (d, none)
  | some patchOps =>
    let old_rope := d.content
    let merged := mergeOps d.ops patchOps
    let new_text := branchContent merged
    let edits := calculate_edits old_rope new_text
    if edits = [] then ({ d with ops := merged, content := new_text }, none)
    else
      ({ d with
          ops := merged
          content := new_text
          pending_remote_updates := d.pending_remote_updates + 1 }, some edits)

/-! ## Workspace (`src/state.rs`) and controller handlers (`src/core.rs`) -/

/-- `state.rs: Workspace` — the document mapping (modelled as an association
list), the local agent identity, and the open set. -/
structure Workspace where
  documents : List (String × Document)
  local_agent_id : String
  open_files : List String
deriving DecidableEq, Repr

/-- `Workspace::new`. -/
def Workspace.newWs (agent_id : String) : Workspace :=
  { documents := [], local_agent_id := agent_id, open_files := [] }

/-- `Workspace::get_or_create` (state.rs lines 28-33):
`entry(uri).or_insert_with(|| Document::new(uri, content, agent))` — returns
the existing document unchanged, or inserts a new one. -/
def Workspace.get_or_create (w : Workspace) (uri : String) (content : List Char) :
    Workspace × Document :=
  match w.documents.find? (fun p => p.1 == uri) with
  | some p => (w, p.2)
  | none =>
    let d := Document.new uri content w.local_agent_id
    ({ w with documents := w.documents ++ [(uri, d)] }, d)

/-- `Workspace::get_snapshot` (state.rs lines 47-58): encode every tracked
document's full oplog; no URI filtering happens here. -/
def Workspace.get_snapshot (w : Workspace) : List (String × PatchBytes) :=
  w.documents.map fun p => (p.1, encodeOplog p.2.ops)

/-- `Workspace::mark_open`. -/
def Workspace.mark_open (w : Workspace) (uri : String) : Workspace :=
  { w with open_files :=
      if uri ∈ w.open_files then w.open_files else w.open_files ++ [uri] }

/-- The `PeerRequestedSync` arm of `Core::run` (core.rs lines 122-135):
take the snapshot and filter out empty and root-only URIs before sending. -/
def peerRequestedSyncFiles (w : Workspace) : List (String × PatchBytes) :=
  w.get_snapshot.filter fun p => !(p.1 == "") && !(p.1 == "/")

/-- The `ClientDidOpen` arm of `Core::run` (core.rs lines 100-103):
`get_or_create(uri, content)` then `mark_open(uri)`. -/
def clientDidOpen (w : Workspace) (uri : String) (content : List Char) : Workspace :=
  ((w.get_or_create uri content).1).mark_open uri

/-! ## Merge and evaluation lemmas -/

theorem mergeOps_nil (x : Oplog) : mergeOps x [] = x := rfl

theorem mergeOps_cons (x : Oplog) (a : Op) (t : Oplog) :
    mergeOps x (a :: t) = mergeOps (if a ∈ x then x else x ++ [a]) t := rfl

theorem mem_mergeOps (y : Oplog) : ∀ (x : Oplog) (o : Op),
    o ∈ mergeOps x y ↔ o ∈ x ∨ o ∈ y := by
  induction y with
  | nil => simp [mergeOps_nil]
  | cons a t ih =>
    intro x o
    rw [mergeOps_cons]
    by_cases ha : a ∈ x
    · rw [if_pos ha, ih]
      constructor
      · rintro (h | h)
        · exact Or.inl h
        · exact Or.inr (List.mem_cons_of_mem _ h)
      · rintro (h | h)
        · exact Or.inl h
        · rcases List.mem_cons.mp h with h | h
          · exact Or.inl (h ▸ ha)
          · exact Or.inr h
    · rw [if_neg ha, ih]
      simp only [List.mem_append, List.mem_singleton, List.mem_cons]
      tauto

theorem mergeOps_of_subset (y : Oplog) : ∀ (x : Oplog), (∀ o ∈ y, o ∈ x) → mergeOps x y = x := by
  induction y with
  | nil => intro x _; rfl
  | cons a t ih =>
    intro x h
    rw [mergeOps_cons, if_pos (h a (List.mem_cons_self a t))]
    exact ih x fun o ho => h o (List.mem_cons_of_mem _ ho)

theorem mergeOps_idem (x y : Oplog) : mergeOps (mergeOps x y) y = mergeOps x y :=
  mergeOps_of_subset y _ fun o ho => (mem_mergeOps y x o).mpr (Or.inr ho)

theorem mem_insPairs (ops : Oplog) (i : CharId) (c : Char) :
    (i, c) ∈ insPairs ops ↔ Op.insert i c ∈ ops := by
  simp only [insPairs, List.mem_filterMap]
  constructor
  · rintro ⟨o, ho, heq⟩
    cases o with
    | insert j d =>
      simp only [Option.some.injEq, Prod.mk.injEq] at heq
      rcases heq with ⟨h1, h2⟩
      exact h1 ▸ h2 ▸ ho
    | remove t => simp at heq
  · intro h
    exact ⟨Op.insert i c, h, rfl⟩

theorem mem_tombs (ops : Oplog) (i : CharId) :
    i ∈ tombs ops ↔ Op.remove i ∈ ops := by
  simp only [tombs, List.mem_filterMap]
  constructor
  · rintro ⟨o, ho, heq⟩
    cases o with
    | insert j d => simp at heq
    | remove t =>
      simp only [Option.some.injEq] at heq
      exact heq ▸ ho
  · intro h
    exact ⟨Op.remove i, h, rfl⟩

/-- The branch content is a function of the operation set. -/
theorem branchContent_congr (l1 l2 : Oplog) (h : ∀ o, o ∈ l1 ↔ o ∈ l2) :
    branchContent l1 = branchContent l2 := by
  have hpairs : ∀ p : CharId × Char, p ∈ (insPairs l1).dedup ↔ p ∈ (insPairs l2).dedup := by
    rintro ⟨i, c⟩
    rw [List.mem_dedup, List.mem_dedup, mem_insPairs, mem_insPairs, h]
  have hperm : (insPairs l1).dedup.Perm (insPairs l2).dedup :=
    (List.perm_ext_iff_of_nodup (List.nodup_dedup _) (List.nodup_dedup _)).mpr hpairs
  have hsorted : sortedPairs l1 = sortedPairs l2 := by
    apply List.eq_of_perm_of_sorted (r := pairLe)
    · exact ((List.perm_insertionSort _ _).trans hperm).trans
        (List.perm_insertionSort _ _).symm
    · exact List.sorted_insertionSort pairLe _
    · exact List.sorted_insertionSort pairLe _
  have htomb : ∀ i : CharId, i ∈ tombs l1 ↔ i ∈ tombs l2 := by
    intro i
    rw [mem_tombs, mem_tombs, h]
  unfold branchContent livePairs
  rw [hsorted]
  congr 1
  apply List.filter_congr
  intro p _
  simp only [decide_eq_decide]
  rw [htomb]

theorem apply_local_changes_patch_eq (d : Document)
    (changes : List TextDocumentContentChangeEvent) (d1 : Document) (p : PatchBytes)
    (h : d.apply_local_changes changes = (d1, some p)) : p = some d1.ops := by
  simp only [Document.apply_local_changes] at h
  by_cases hp : 0 < d.pending_remote_updates
  · rw [if_pos hp] at h
    simp at h
  · rw [if_neg hp] at h
    cases hres : (applyLocalLoop d changes false).2 with
    | false =>
      rw [hres] at h
      simp at h
    | true =>
      rw [hres] at h
      simp only [if_true, Prod.mk.injEq, encodeOplog] at h
      rcases h with ⟨h1, h2⟩
      rw [← Option.some.inj h2, h1]

theorem apply_remote_patch_content (d : Document) (P : Oplog) :
    ((d.apply_remote_patch (some P)).1).content = branchContent (mergeOps d.ops P) := by
  simp only [Document.apply_remote_patch]
  split_ifs <;> rfl

theorem apply_remote_patch_ops (d : Document) (P : Oplog) :
    ((d.apply_remote_patch (some P)).1).ops = mergeOps d.ops P := by
  simp only [Document.apply_remote_patch]
  split_ifs <;> rfl

/-- C2. For any two Documents created with the same initial content, if each
applies one local change batch producing a patch and each then applies the
other's patch via `apply_remote_patch`, their final content strings are
equal: the merged operation sets coincide and the branch content is a
function of the operation set. -/
theorem C2_convergence (uriA uriB : String) (initial : List Char) (agentA agentB : String)
    (changesA changesB : List TextDocumentContentChangeEvent)
    (dA1 dB1 : Document) (pA pB : PatchBytes)
    (hA : (Document.new uriA initial agentA).apply_local_changes changesA = (dA1, some pA))
    (hB : (Document.new uriB initial agentB).apply_local_changes changesB = (dB1, some pB)) :
    ((dA1.apply_remote_patch pB).1).content = ((dB1.apply_remote_patch pA).1).content := by
  have hpA := apply_local_changes_patch_eq _ _ _ _ hA
  have hpB := apply_local_changes_patch_eq _ _ _ _ hB
  subst hpA
  subst hpB
  rw [apply_remote_patch_content, apply_remote_patch_content]
  apply branchContent_congr
  intro o
  rw [mem_mergeOps, mem_mergeOps]
  tauto

def c2cX : TextDocumentContentChangeEvent :=
  { range := some { start := ⟨0, 0⟩, «end» := ⟨0, 0⟩ }, text := ['X'] }

def c2cY : TextDocumentContentChangeEvent :=
  { range := some { start := ⟨0, 0⟩, «end» := ⟨0, 0⟩ }, text := ['Y'] }

def c2dA1 : Document :=
  ((Document.new "u" ['S', 't'] "A").apply_local_changes [c2cX]).1

def c2dB1 : Document :=
  ((Document.new "u" ['S', 't'] "B").apply_local_changes [c2cY]).1

def c2pA : PatchBytes := some c2dA1.ops

def c2pB : PatchBytes := some c2dB1.ops

theorem C2_convergence_witness :
    ((Document.new "u" ['S', 't'] "A").apply_local_changes [c2cX] = (c2dA1, some c2pA) ∧
      (Document.new "u" ['S', 't'] "B").apply_local_changes [c2cY] = (c2dB1, some c2pB)) ∧
    ((c2dA1.apply_remote_patch c2pB).1).content = ((c2dB1.apply_remote_patch c2pA).1).content :=
  ⟨⟨by decide, by decide⟩,
    C2_convergence "u" "u" ['S', 't'] "A" "B" [c2cX] [c2cY] c2dA1 c2dB1 c2pA c2pB
      (by decide) (by decide)⟩

/-- C3. If the pending-remote-updates counter is positive when
`apply_local_changes` is called (with any, possibly empty, change list),
the call decrements the counter by exactly one, returns `None`, and leaves
the content view and the CRDT operation log unchanged. -/
theorem C3_echo_guard (d : Document) (changes : List TextDocumentContentChangeEvent)
    (h : 0 < d.pending_remote_updates) :
    d.apply_local_changes changes
      = ({ d with pending_remote_updates := d.pending_remote_updates - 1 }, none) := by
  simp [Document.apply_local_changes, h]

theorem C3_echo_guard_witness :
    0 < (Document.mk "u" ['A'] [] "a" 1).pending_remote_updates ∧
    (Document.mk "u" ['A'] [] "a" 1).apply_local_changes
        [{ range := none, text := ['B'] }]
      = (Document.mk "u" ['A'] [] "a" 0, none) :=
  ⟨by decide,
    C3_echo_guard (Document.mk "u" ['A'] [] "a" 1) [{ range := none, text := ['B'] }]
      (by decide)⟩

/-- C4. `apply_remote_patch` increments the pending-remote-updates counter by
exactly one if and only if it returns a non-empty edit list (`Some` results
are always non-empty); on decode failure or an empty diff it returns `None`
and leaves the counter unchanged. -/
theorem C4_counter_increment (d : Document) (patch : PatchBytes) :
    (∃ es, (d.apply_remote_patch patch).2 = some es ∧ es ≠ [] ∧
        ((d.apply_remote_patch patch).1).pending_remote_updates
          = d.pending_remote_updates + 1) ∨
    ((d.apply_remote_patch patch).2 = none ∧
      ((d.apply_remote_patch patch).1).pending_remote_updates
        = d.pending_remote_updates) := by
  cases patch with
  | none => exact Or.inr ⟨rfl, rfl⟩
  | some P =>
    simp only [Document.apply_remote_patch]
    by_cases hed : calculate_edits d.content (branchContent (mergeOps d.ops P)) = []
    · rw [if_pos hed]
      exact Or.inr ⟨rfl, rfl⟩
    · rw [if_neg hed]
      exact Or.inl ⟨_, rfl, hed, rfl⟩

/-- C9 counterexample. `Workspace::get_snapshot` performs no URI filtering:
a workspace tracking a document under the empty URI produces a snapshot
containing that pair. -/
theorem C9_snapshot_counterexample :
    ("" : String) ∈
      (Workspace.mk [("", Document.new "" [] "agent")] "agent" []).get_snapshot.map
        Prod.fst := by
  decide

/-- C9 (amended). The sequence sent in response to `PeerRequestedSync`
(snapshot filtered in the controller handler, `core.rs`) contains no empty
and no root-only URI; the filtering happens in the handler, not inside
`get_snapshot` itself. -/
theorem C9_sync_filter (w : Workspace) (uri : String) (pb : PatchBytes)
    (h : (uri, pb) ∈ peerRequestedSyncFiles w) : uri ≠ "" ∧ uri ≠ "/" := by
  simp only [peerRequestedSyncFiles, List.mem_filter, Bool.and_eq_true,
    Bool.not_eq_true'] at h
  rcases h with ⟨-, h1, h2⟩
  rw [beq_eq_false_iff_ne] at h1 h2
  exact ⟨h1, h2⟩

theorem C9_sync_filter_witness :
    (("a.txt", (some [] : PatchBytes)) ∈
        peerRequestedSyncFiles
          (Workspace.mk [("a.txt", Document.mk "a.txt" [] [] "x" 0),
            ("", Document.mk "" [] [] "x" 0)] "x" [])) ∧
    ("a.txt" : String) ≠ "" ∧ ("a.txt" : String) ≠ "/" :=
  ⟨by decide,
    C9_sync_filter
      (Workspace.mk [("a.txt", Document.mk "a.txt" [] [] "x" 0),
        ("", Document.mk "" [] [] "x" 0)] "x" [])
      "a.txt" (some []) (by decide)⟩

/-- C10. If the document mapping already contains a URI, `get_or_create`
returns the stored document and leaves the workspace unchanged, for every
value of the content argument; consequently the `ClientDidOpen` handler
(get_or_create then mark_open) never alters the stored documents. -/
theorem C10_get_or_create_existing (w : Workspace) (uri : String) (content : List Char)
    (q : String × Document) (h : w.documents.find? (fun p => p.1 == uri) = some q) :
    w.get_or_create uri content = (w, q.2) ∧
    (clientDidOpen w uri content).documents = w.documents := by
  constructor
  · simp [Workspace.get_or_create, h]
  · simp [clientDidOpen, Workspace.get_or_create, Workspace.mark_open, h]

theorem C10_get_or_create_existing_witness :
    ((Workspace.mk [("u", Document.mk "u" ['A'] [] "x" 0)] "x" []).documents.find?
        (fun p => p.1 == "u") = some ("u", Document.mk "u" ['A'] [] "x" 0)) ∧
    ((Workspace.mk [("u", Document.mk "u" ['A'] [] "x" 0)] "x" []).get_or_create "u" ['Z']
        = (Workspace.mk [("u", Document.mk "u" ['A'] [] "x" 0)] "x" [],
            Document.mk "u" ['A'] [] "x" 0) ∧
      (clientDidOpen (Workspace.mk [("u", Document.mk "u" ['A'] [] "x" 0)] "x" []) "u"
            ['Z']).documents
        = (Workspace.mk [("u", Document.mk "u" ['A'] [] "x" 0)] "x" []).documents) :=
  ⟨by decide,
    C10_get_or_create_existing (Workspace.mk [("u", Document.mk "u" ['A'] [] "x" 0)] "x" [])
      "u" ['Z'] ("u", Document.mk "u" ['A'] [] "x" 0) (by decide)⟩

theorem apply_remote_patch_eq_of_edits_nil (x : Document) (P : Oplog)
    (h : calculate_edits x.content (branchContent (mergeOps x.ops P)) = []) :
    x.apply_remote_patch (some P)
      = ({ x with
            ops := mergeOps x.ops P
            content := branchContent (mergeOps x.ops P) }, none) := by
  simp only [Document.apply_remote_patch]
  rw [if_pos h]

theorem apply_remote_patch_pending_of_some (x : Document) (P : Oplog) (es : List TextEdit)
    (h : (x.apply_remote_patch (some P)).2 = some es) :
    ((x.apply_remote_patch (some P)).1).pending_remote_updates
      = x.pending_remote_updates + 1 := by
  simp only [Document.apply_remote_patch] at h ⊢
  split_ifs at h ⊢ with hed
  rfl

theorem calculate_edits_self (x : List Char) : calculate_edits x x = [] := by
  simp [calculate_edits]

/-- C6 (amended). Applying the same patch twice yields the same final
content as applying it once; the second application returns `None`; and
when the first application returned edits, the counter after the duplicate
application is exactly one more than before the first application. -/
theorem C6_patch_idempotency (d : Document) (patch : PatchBytes) :
    (((d.apply_remote_patch patch).1.apply_remote_patch patch).1).content
        = ((d.apply_remote_patch patch).1).content ∧
    ((d.apply_remote_patch patch).1.apply_remote_patch patch).2 = none ∧
    (∀ es, (d.apply_remote_patch patch).2 = some es →
      (((d.apply_remote_patch patch).1.apply_remote_patch patch).1).pending_remote_updates
        = d.pending_remote_updates + 1) := by
  cases patch with
  | none =>
    refine ⟨rfl, rfl, fun es h => ?_⟩
    simp [Document.apply_remote_patch] at h
  | some P =>
    have hops : ((d.apply_remote_patch (some P)).1).ops = mergeOps d.ops P :=
      apply_remote_patch_ops d P
    have hcont : ((d.apply_remote_patch (some P)).1).content
        = branchContent (mergeOps d.ops P) := apply_remote_patch_content d P
    have hmerge2 : mergeOps ((d.apply_remote_patch (some P)).1).ops P
        = ((d.apply_remote_patch (some P)).1).ops := by
      rw [hops]
      exact mergeOps_idem _ _
    have hnew : branchContent (mergeOps ((d.apply_remote_patch (some P)).1).ops P)
        = ((d.apply_remote_patch (some P)).1).content := by
      rw [hmerge2, hops, hcont]
    have hedits : calculate_edits ((d.apply_remote_patch (some P)).1).content
        (branchContent (mergeOps ((d.apply_remote_patch (some P)).1).ops P)) = [] := by
      rw [hnew]
      exact calculate_edits_self _
    have hsecond := apply_remote_patch_eq_of_edits_nil (d.apply_remote_patch (some P)).1 P hedits
    refine ⟨?_, ?_, ?_⟩
    · rw [hsecond]
      exact hnew
    · rw [hsecond]
    · intro es h
      rw [hsecond]
      exact apply_remote_patch_pending_of_some d P es h

def c6cX : TextDocumentContentChangeEvent :=
  { range := some { start := ⟨0, 1⟩, «end» := ⟨0, 1⟩ }, text := ['X'] }

def c6cY : TextDocumentContentChangeEvent :=
  { range := some { start := ⟨0, 2⟩, «end» := ⟨0, 2⟩ }, text := ['Y'] }

def c6A1 : Document := ((Document.new "u" ['I'] "A").apply_local_changes [c6cX]).1

def c6p1 : PatchBytes := some c6A1.ops

def c6A2 : Document := (c6A1.apply_local_changes [c6cY]).1

def c6p2 : PatchBytes := some c6A2.ops

def c6B1 : Document := ((Document.new "u" ['I'] "B").apply_remote_patch c6p1).1

/-- C6 counterexample. A Document whose counter is already 1 (it has applied
one unechoed remote patch) applies a fresh patch twice; the first
application returns non-empty edits, yet after the duplicate application
the counter is 2, not 1. -/
theorem C6_counter_counterexample :
    (c6B1.apply_remote_patch c6p2).2 ≠ none ∧
    (c6B1.apply_remote_patch c6p2).2 ≠ some [] ∧
    (((c6B1.apply_remote_patch c6p2).1.apply_remote_patch c6p2).1).pending_remote_updates
      = 2 := by
  refine ⟨by decide, by decide, by decide⟩

def c6es : List TextEdit := ((c6B1.apply_remote_patch c6p2).2).getD []

theorem C6_patch_idempotency_witness :
    (c6B1.apply_remote_patch c6p2).2 = some c6es ∧
    (((c6B1.apply_remote_patch c6p2).1.apply_remote_patch c6p2).1).pending_remote_updates
      = c6B1.pending_remote_updates + 1 :=
  ⟨by decide, (C6_patch_idempotency c6B1 c6p2).2.2 c6es (by decide)⟩

theorem applyLocalLoop_all_none :
    ∀ (changes : List TextDocumentContentChangeEvent) (d : Document) (pg : Bool),
    (∀ c ∈ changes, c.range = none) →
    applyLocalLoop d changes pg
      = ({ d with
            content := changes.foldl (fun acc c => apply_change_to_rope acc c) d.content },
          pg) := by
  intro changes
  induction changes with
  | nil => intro d pg _; rfl
  | cons c rest ih =>
    intro d pg hall
    have hc : c.range = none := hall c (List.mem_cons_self c rest)
    have hstep : applyLocalStep d c pg
        = ({ d with content := apply_change_to_rope d.content c }, pg) := by
      simp only [applyLocalStep, hc]
    simp only [applyLocalLoop, hstep]
    rw [ih _ pg (fun x hx => hall x (List.mem_cons_of_mem c hx))]
    rfl

theorem foldl_rope_all_none :
    ∀ (changes : List TextDocumentContentChangeEvent) (acc : List Char),
    (∀ c ∈ changes, c.range = none) →
    ∀ c0, changes.getLast? = some c0 →
    changes.foldl (fun acc c => apply_change_to_rope acc c) acc = c0.text := by
  intro changes
  induction changes with
  | nil => intro acc _ c0 h; simp at h
  | cons c rest ih =>
    intro acc hall c0 h
    cases rest with
    | nil =>
      simp only [List.getLast?_singleton, Option.some.injEq] at h
      have hc : c.range = none := hall c (List.mem_cons_self c [])
      rw [← h]
      simp [apply_change_to_rope, hc]
    | cons r rs =>
      have hlast : (r :: rs).getLast? = some c0 := by
        rw [← h]
        exact List.getLast?_cons_cons.symm
      simp only [List.foldl_cons]
      exact ih _ (fun x hx => hall x (List.mem_cons_of_mem c hx)) c0 hlast

/-- C8 (amended). When the counter is 0 and every change in the batch is a
full-text replacement (no range), `apply_local_changes` returns `None`, the
content view is reset to the last replacement text, the counter stays 0 —
and the CRDT oplog is left completely unchanged (it is not re-seeded). -/
theorem C8_full_replacement (d : Document) (changes : List TextDocumentContentChangeEvent)
    (hp : d.pending_remote_updates = 0) (hall : ∀ c ∈ changes, c.range = none) :
    (d.apply_local_changes changes).2 = none ∧
    ((d.apply_local_changes changes).1).ops = d.ops ∧
    ((d.apply_local_changes changes).1).pending_remote_updates = 0 ∧
    (∀ c0, changes.getLast? = some c0 →
      ((d.apply_local_changes changes).1).content = c0.text) := by
  have hloop := applyLocalLoop_all_none changes d false hall
  have hmain : d.apply_local_changes changes
      = ({ d with
            content := changes.foldl (fun acc c => apply_change_to_rope acc c) d.content },
          none) := by
    simp [Document.apply_local_changes, hp, hloop]
  rw [hmain]
  refine ⟨rfl, rfl, hp, ?_⟩
  intro c0 h
  exact foldl_rope_all_none changes d.content hall c0 h

theorem C8_full_replacement_witness :
    ((Document.new "f" ['A'] "X").pending_remote_updates = 0 ∧
      (∀ c ∈ [({ range := none, text := ['B'] } : TextDocumentContentChangeEvent)],
        c.range = none)) ∧
    ((Document.new "f" ['A'] "X").apply_local_changes
        [{ range := none, text := ['B'] }]).2 = none ∧
    (((Document.new "f" ['A'] "X").apply_local_changes
        [{ range := none, text := ['B'] }]).1).content = ['B'] :=
  ⟨⟨by decide, by decide⟩,
    (C8_full_replacement (Document.new "f" ['A'] "X") [{ range := none, text := ['B'] }]
        (by decide) (by decide)).1,
    (C8_full_replacement (Document.new "f" ['A'] "X") [{ range := none, text := ['B'] }]
        (by decide) (by decide)).2.2.2 { range := none, text := ['B'] } (by decide)⟩

/-- C8 counterexample. A full-text replacement resets the content view but
leaves the CRDT log untouched: the branch still holds the old text, so the
log is not re-seeded to reflect the replacement text. -/
theorem C8_no_reseed_counterexample :
    (((Document.new "f" ['A'] "X").apply_local_changes
        [{ range := none, text := ['B'] }]).1).content = ['B'] ∧
    (((Document.new "f" ['A'] "X").apply_local_changes
        [{ range := none, text := ['B'] }]).1).ops = (Document.new "f" ['A'] "X").ops ∧
    branchContent (((Document.new "f" ['A'] "X").apply_local_changes
        [{ range := none, text := ['B'] }]).1).ops = ['A'] := by
  refine ⟨by decide, by decide, by decide⟩

/-! ## Allocation correctness: freshness and betweenness -/

theorem idLt_append_pos (c : Comp) (hc : 1 ≤ c.z) : ∀ p : CharId, idLt p (p ++ [c]) := by
  intro p
  induction p with
  | nil => rw [List.nil_append, idLt_nil_cons]; exact hc
  | cons a s ih => rw [List.cons_append, idLt_cons_cons]; exact Or.inr ⟨rfl, ih⟩

theorem idLt_append_neg (c : Comp) (hc : c.z ≤ 0) : ∀ q : CharId, idLt (q ++ [c]) q := by
  intro q
  induction q with
  | nil => rw [List.nil_append, idLt_cons_nil]; exact hc
  | cons a s ih => rw [List.cons_append, idLt_cons_cons]; exact Or.inr ⟨rfl, ih⟩

theorem idLt_append_left (c : Comp) :
    ∀ (p q : CharId), idLt p q → q.length ≤ p.length → idLt (p ++ [c]) q := by
  intro p
  induction p with
  | nil =>
    intro q h hlen
    have : q = [] := List.eq_nil_of_length_eq_zero (Nat.le_zero.mp hlen)
    subst this
    exact absurd h idLt_nil_nil
  | cons a s ih =>
    intro q h hlen
    cases q with
    | nil =>
      rw [idLt_cons_nil] at h
      rw [List.cons_append, idLt_cons_nil]
      exact h
    | cons b t =>
      rw [idLt_cons_cons] at h
      rw [List.cons_append, idLt_cons_cons]
      rcases h with h | ⟨h, h'⟩
      · exact Or.inl h
      · refine Or.inr ⟨h, ih t h' ?_⟩
        simpa using hlen

theorem idLt_append_right (c : Comp) :
    ∀ (p q : CharId), idLt p q → p.length < q.length → idLt p (q ++ [c]) := by
  intro p
  induction p with
  | nil =>
    intro q h hlen
    cases q with
    | nil => simp at hlen
    | cons b t =>
      rw [idLt_nil_cons] at h
      rw [List.cons_append, idLt_nil_cons]
      exact h
  | cons a s ih =>
    intro q h hlen
    cases q with
    | nil => simp at hlen
    | cons b t =>
      rw [idLt_cons_cons] at h
      rw [List.cons_append, idLt_cons_cons]
      rcases h with h | ⟨h, h'⟩
      · exact Or.inl h
      · refine Or.inr ⟨h, ih t h' ?_⟩
        simpa using hlen

/-- Lower-bound constraint of an optional bound. -/
def ltLo : Option CharId → CharId → Prop
  | none, _ => True
  | some p, x => idLt p x

/-- Upper-bound constraint of an optional bound. -/
def ltHi : CharId → Option CharId → Prop
  | _, none => True
  | x, some q => idLt x q

/-- Compatibility of a pair of optional bounds. -/
def boundsOk : Option CharId → Option CharId → Prop
  | some p, some q => idLt p q
  | _, _ => True

theorem allocId_between (lo hi : Option CharId) (a : String) (n : Nat)
    (h : boundsOk lo hi) : ltLo lo (allocId lo hi a n) ∧ ltHi (allocId lo hi a n) hi := by
  cases lo with
  | none =>
    cases hi with
    | none => exact ⟨trivial, trivial⟩
    | some q =>
      refine ⟨trivial, ?_⟩
      exact idLt_append_neg ⟨-1, a, n⟩ (by norm_num) q
  | some p =>
    cases hi with
    | none =>
      refine ⟨?_, trivial⟩
      exact idLt_append_pos ⟨1, a, n⟩ (by norm_num) p
    | some q =>
      have hpq : idLt p q := h
      simp only [allocId]
      split_ifs with hlen
      · exact ⟨idLt_append_pos ⟨1, a, n⟩ (by norm_num) p,
          idLt_append_left ⟨1, a, n⟩ p q hpq hlen⟩
      · exact ⟨idLt_append_right ⟨-1, a, n⟩ p q hpq (by omega),
          idLt_append_neg ⟨-1, a, n⟩ (by norm_num) q⟩

theorem le_foldl_max {α : Type} (g : α → Nat) :
    ∀ (l : List α) (m : Nat), m ≤ l.foldl (fun acc y => max acc (g y)) m := by
  intro l
  induction l with
  | nil => intro m; exact le_rfl
  | cons z u ih =>
    intro m
    simp only [List.foldl_cons]
    exact le_trans (le_max_left _ _) (ih _)

theorem foldl_max_ge_elem {α : Type} (g : α → Nat) :
    ∀ (l : List α) (m : Nat) (x : α), x ∈ l → g x ≤ l.foldl (fun acc y => max acc (g y)) m := by
  intro l
  induction l with
  | nil => intro m x hx; simp at hx
  | cons y t ih =>
    intro m x hx
    rcases List.mem_cons.mp hx with hx | hx
    · subst hx
      simp only [List.foldl_cons]
      exact le_trans (le_max_right _ _) (le_foldl_max g t _)
    · exact ih _ x hx

theorem seq_lt_nextSeq (ops : Oplog) (a : String) (i : CharId) (ch : Char) (c : Comp)
    (hmem : Op.insert i ch ∈ ops) (hlast : i.getLast? = some c) (hagent : c.agent = a) :
    c.seq < nextSeq ops a := by
  have h := foldl_max_ge_elem (fun o => seqBound o a) ops 0 (Op.insert i ch) hmem
  simp only [seqBound, hlast, hagent, if_pos rfl] at h
  exact h

theorem allocId_getLast (lo hi : Option CharId) (a : String) (n : Nat) :
    ∃ z : Int, (allocId lo hi a n).getLast? = some ⟨z, a, n⟩ := by
  cases lo <;> cases hi <;> simp only [allocId]
  · exact ⟨1, rfl⟩
  · exact ⟨-1, List.getLast?_concat _⟩
  · exact ⟨1, List.getLast?_concat _⟩
  · split_ifs
    · exact ⟨1, List.getLast?_concat _⟩
    · exact ⟨-1, List.getLast?_concat _⟩

theorem allocId_fresh (ops : Oplog) (a : String) (lo hi : Option CharId)
    (i : CharId) (ch : Char) (hmem : Op.insert i ch ∈ ops) :
    i ≠ allocId lo hi a (nextSeq ops a) := by
  intro heq
  obtain ⟨z, hlast⟩ := allocId_getLast lo hi a (nextSeq ops a)
  rw [← heq] at hlast
  have := seq_lt_nextSeq ops a i ch ⟨z, a, nextSeq ops a⟩ hmem hlast rfl
  simp at this

/-! ## Well-formedness of op sets -/

/-- Distinct insert operations carry distinct identifiers. -/
def NodupIds (ops : Oplog) : Prop := ((insPairs ops).dedup.map Prod.fst).Nodup

/-- Every tombstone targets the identifier of some insert in the log
(operation-based CRDT patches are causally closed). -/
def ClosedTombs (ops : Oplog) : Prop := ∀ t ∈ tombs ops, t ∈ (insPairs ops).map Prod.fst

/-- Representation invariant of a merged CRDT state, as diamond-types
guarantees it for logs built from well-behaved agents. -/
def WFOplog (ops : Oplog) : Prop := NodupIds ops ∧ ClosedTombs ops

/-- I1 (`content_view == crdt.branch.content()`) together with the CRDT
representation invariant. -/
def DocOK (d : Document) : Prop := d.content = branchContent d.ops ∧ WFOplog d.ops

instance NodupIds.instDec (ops : Oplog) : Decidable (NodupIds ops) :=
  inferInstanceAs (Decidable (((insPairs ops).dedup.map Prod.fst).Nodup))

instance ClosedTombs.instDec (ops : Oplog) : Decidable (ClosedTombs ops) :=
  inferInstanceAs (Decidable (∀ t ∈ tombs ops, t ∈ (insPairs ops).map Prod.fst))

instance WFOplog.instDec (ops : Oplog) : Decidable (WFOplog ops) :=
  inferInstanceAs (Decidable (_ ∧ _))

instance DocOK.instDec (d : Document) : Decidable (DocOK d) :=
  inferInstanceAs (Decidable (_ ∧ _))

/-! ## Structure of the evaluation pipeline -/

theorem insPairs_append (x y : Oplog) : insPairs (x ++ y) = insPairs x ++ insPairs y :=
  List.filterMap_append x y _

theorem tombs_append (x y : Oplog) : tombs (x ++ y) = tombs x ++ tombs y :=
  List.filterMap_append x y _

theorem insPairs_removes (l : List (CharId × Char)) :
    insPairs (l.map fun p => Op.remove p.1) = [] := by
  induction l with
  | nil => rfl
  | cons p t ih => simp [insPairs] at ih ⊢

theorem tombs_removes (l : List (CharId × Char)) :
    tombs (l.map fun p => Op.remove p.1) = l.map Prod.fst := by
  induction l with
  | nil => rfl
  | cons p t ih => simpa [tombs] using ih

theorem sortedPairs_sorted (ops : Oplog) : List.Sorted pairLe (sortedPairs ops) :=
  List.sorted_insertionSort pairLe _

theorem sortedPairs_perm (ops : Oplog) : (sortedPairs ops).Perm (insPairs ops).dedup :=
  List.perm_insertionSort pairLe _

theorem mem_sortedPairs (ops : Oplog) (p : CharId × Char) :
    p ∈ sortedPairs ops ↔ p ∈ insPairs ops := by
  rw [(sortedPairs_perm ops).mem_iff, List.mem_dedup]

theorem sortedPairs_fst_nodup (ops : Oplog) (hN : NodupIds ops) :
    ((sortedPairs ops).map Prod.fst).Nodup :=
  (((sortedPairs_perm ops).map Prod.fst).nodup_iff).mpr hN

theorem sortedPairs_pairwise_idLt (ops : Oplog) (hN : NodupIds ops) :
    (sortedPairs ops).Pairwise fun p q => idLt p.1 q.1 := by
  have hfst : (sortedPairs ops).Pairwise fun p q : CharId × Char => p.1 ≠ q.1 := by
    have := sortedPairs_fst_nodup ops hN
    rwa [List.Nodup, List.pairwise_map] at this
  have hsorted : (sortedPairs ops).Pairwise pairLe := sortedPairs_sorted ops
  have := hsorted.and hfst
  refine this.imp ?_
  rintro p q ⟨hle, hne⟩
  rcases hle with h | ⟨h, -⟩
  · exact h
  · exact absurd h hne

theorem livePairs_sublist (ops : Oplog) : (livePairs ops).Sublist (sortedPairs ops) :=
  List.filter_sublist _

theorem livePairs_sorted (ops : Oplog) : List.Sorted pairLe (livePairs ops) :=
  (sortedPairs_sorted ops).sublist (livePairs_sublist ops)

theorem livePairs_pairwise_idLt (ops : Oplog) (hN : NodupIds ops) :
    (livePairs ops).Pairwise fun p q => idLt p.1 q.1 :=
  (sortedPairs_pairwise_idLt ops hN).sublist (livePairs_sublist ops)

theorem mem_livePairs (ops : Oplog) (p : CharId × Char) :
    p ∈ livePairs ops ↔ p ∈ insPairs ops ∧ p.1 ∉ tombs ops := by
  unfold livePairs
  rw [List.mem_filter, mem_sortedPairs]
  simp

/-- The identifier `crdtInsertChar` allocates. -/
def insertIdAt (ops : Oplog) (a : String) (pos : Nat) : CharId :=
  allocId (((livePairs ops).take pos).getLast?.map Prod.fst)
    (((livePairs ops).get? pos).map Prod.fst) a (nextSeq ops a)

theorem crdtInsertChar_eq (ops : Oplog) (a : String) (pos : Nat) (ch : Char) :
    crdtInsertChar ops a pos ch = ops ++ [Op.insert (insertIdAt ops a pos) ch] := rfl

theorem pairwise_take_last_all {α : Type} {R : α → α → Prop}
    (L : List α) (hP : L.Pairwise R) (pos : Nat) (x : α)
    (hx : (L.take pos).getLast? = some x) :
    ∀ p ∈ L.take pos, p = x ∨ R p x := by
  have hA : (L.take pos).Pairwise R := hP.sublist (List.take_sublist _ _)
  have hsplit := List.dropLast_append_getLast? x hx
  intro p hp
  rw [← hsplit] at hp hA
  rcases List.mem_append.mp hp with hp | hp
  · exact Or.inr ((List.pairwise_append.mp hA).2.2 p hp x (List.mem_singleton_self x))
  · exact Or.inl (by simpa using hp)

theorem pairwise_head_all {α : Type} {R : α → α → Prop} (L : List α) (hP : L.Pairwise R)
    (y : α) (hy : L.head? = some y) : ∀ q ∈ L, q = y ∨ R y q := by
  cases L with
  | nil => simp at hy
  | cons b t =>
    simp only [List.head?_cons, Option.some.injEq] at hy
    subst hy
    intro q hq
    rcases List.mem_cons.mp hq with hq | hq
    · exact Or.inl hq
    · exact Or.inr ((List.pairwise_cons.mp hP).1 q hq)

theorem mem_take_of_getLast?_ne_none {α : Type} (L : List α) (pos : Nat) (x : α)
    (hx : (L.take pos).getLast? = some x) : x ∈ L.take pos := by
  rw [← List.dropLast_append_getLast? x hx]
  simp

theorem get?_eq_head?_drop {α : Type} (L : List α) (pos : Nat) :
    L.get? pos = (L.drop pos).head? := by
  rw [List.head?_drop, List.get?_eq_getElem?]

theorem alloc_between_livePairs (ops : Oplog) (a : String) (pos : Nat) (hN : NodupIds ops) :
    (∀ p ∈ (livePairs ops).take pos, idLt p.1 (insertIdAt ops a pos)) ∧
    (∀ q ∈ (livePairs ops).drop pos, idLt (insertIdAt ops a pos) q.1) := by
  have hPid := livePairs_pairwise_idLt ops hN
  have hLsplit := List.take_append_drop pos (livePairs ops)
  have hbounds : boundsOk (((livePairs ops).take pos).getLast?.map Prod.fst)
      (((livePairs ops).get? pos).map Prod.fst) := by
    rcases h1 : ((livePairs ops).take pos).getLast? with - | x
    · simp [boundsOk]
    · rcases h2 : (livePairs ops).get? pos with - | y
      · simp [boundsOk]
      · have hxmem : x ∈ (livePairs ops).take pos := mem_take_of_getLast?_ne_none _ pos x h1
        have hymem : y ∈ (livePairs ops).drop pos := by
          apply List.mem_of_mem_head?
          rw [← get?_eq_head?_drop]
          exact h2
        have hR : idLt x.1 y.1 :=
          (List.pairwise_append.mp (hLsplit ▸ hPid)).2.2 x hxmem y hymem
        simpa [boundsOk] using hR
  have halloc := allocId_between (((livePairs ops).take pos).getLast?.map Prod.fst)
    (((livePairs ops).get? pos).map Prod.fst) a (nextSeq ops a) hbounds
  constructor
  · intro p hp
    rcases h1 : ((livePairs ops).take pos).getLast? with - | x
    · rcases hA : (livePairs ops).take pos with - | ⟨u, v⟩
      · rw [hA] at hp
        simp at hp
      · rw [hA] at h1
        simp at h1
    · have hlo : idLt x.1 (insertIdAt ops a pos) := by
        have h := halloc.1
        unfold insertIdAt
        rw [h1] at h ⊢
        simp only [Option.map_some'] at h ⊢
        exact h
      rcases pairwise_take_last_all (livePairs ops) hPid pos x h1 p hp with hpx | hpx
      · exact hpx ▸ hlo
      · exact idLt_trans _ _ _ hpx hlo
  · intro q hq
    rcases h2 : (livePairs ops).get? pos with - | y
    · rcases hB : (livePairs ops).drop pos with - | ⟨u, v⟩
      · rw [hB] at hq
        simp at hq
      · rw [get?_eq_head?_drop, hB] at h2
        simp at h2
    · have hhi : idLt (insertIdAt ops a pos) y.1 := by
        have h := halloc.2
        unfold insertIdAt
        rw [h2] at h ⊢
        simp only [Option.map_some'] at h ⊢
        exact h
      have hhead : ((livePairs ops).drop pos).head? = some y := by
        rw [← get?_eq_head?_drop]
        exact h2
      have hPB : ((livePairs ops).drop pos).Pairwise fun p q => idLt p.1 q.1 :=
        hPid.sublist (List.drop_sublist _ _)
      rcases pairwise_head_all _ hPB y hhead q hq with hqy | hqy
      · exact hqy ▸ hhi
      · exact idLt_trans _ _ _ hhi hqy

theorem insertIdAt_fresh (ops : Oplog) (a : String) (pos : Nat) :
    ∀ pr ∈ insPairs ops, pr.1 ≠ insertIdAt ops a pos := by
  rintro ⟨i, c⟩ hpr
  exact allocId_fresh ops a _ _ i c ((mem_insPairs ops i c).mp hpr)

theorem crdtInsertChar_livePairs (ops : Oplog) (a : String) (pos : Nat) (ch : Char)
    (hWF : WFOplog ops) :
    livePairs (crdtInsertChar ops a pos ch)
      = (livePairs ops).take pos ++ (insertIdAt ops a pos, ch) :: (livePairs ops).drop pos ∧
    WFOplog (crdtInsertChar ops a pos ch) := by
  obtain ⟨hN, hT⟩ := hWF
  have hfreshIns := insertIdAt_fresh ops a pos
  have hxnotin : (insertIdAt ops a pos, ch) ∉ insPairs ops := fun h => hfreshIns _ h rfl
  have hidnotin : insertIdAt ops a pos ∉ (insPairs ops).map Prod.fst := by
    intro h
    rcases List.mem_map.mp h with ⟨pr, hpr, hfst⟩
    exact hfreshIns pr hpr hfst
  have hins' : insPairs (crdtInsertChar ops a pos ch)
      = insPairs ops ++ [(insertIdAt ops a pos, ch)] := by
    rw [crdtInsertChar_eq, insPairs_append]
    rfl
  have htombs' : tombs (crdtInsertChar ops a pos ch) = tombs ops := by
    rw [crdtInsertChar_eq, tombs_append]
    simp [tombs]
  have hpermdedup : (insPairs (crdtInsertChar ops a pos ch)).dedup.Perm
      ((insertIdAt ops a pos, ch) :: (insPairs ops).dedup) := by
    apply (List.perm_ext_iff_of_nodup (List.nodup_dedup _) ?_).mpr
    · intro p
      rw [List.mem_dedup, hins']
      simp only [List.mem_append, List.mem_singleton, List.mem_cons, List.mem_dedup]
      tauto
    · exact List.nodup_cons.mpr ⟨fun h => hxnotin (List.mem_dedup.mp h), List.nodup_dedup _⟩
  have hperm : (sortedPairs (crdtInsertChar ops a pos ch)).Perm
      ((insertIdAt ops a pos, ch) :: sortedPairs ops) :=
    (sortedPairs_perm _).trans
      (hpermdedup.trans (List.Perm.cons _ (sortedPairs_perm ops).symm))
  have hnewlive : insertIdAt ops a pos ∉ tombs ops := by
    intro h
    exact hidnotin (hT _ h)
  have hlive' : (livePairs (crdtInsertChar ops a pos ch)).Perm
      ((insertIdAt ops a pos, ch) :: livePairs ops) := by
    unfold livePairs
    rw [htombs']
    have := hperm.filter fun p : CharId × Char => decide (p.1 ∉ tombs ops)
    rw [List.filter_cons] at this
    simpa [hnewlive] using this
  have hbetween := alloc_between_livePairs ops a pos hN
  have hLsorted := livePairs_sorted ops
  have hLsplit := List.take_append_drop pos (livePairs ops)
  have hcand_sorted : List.Sorted pairLe
      ((livePairs ops).take pos
        ++ (insertIdAt ops a pos, ch) :: (livePairs ops).drop pos) := by
    rw [List.Sorted, List.pairwise_append]
    have hsp := hLsplit ▸ hLsorted
    rw [List.Sorted, List.pairwise_append] at hsp
    refine ⟨hsp.1, ?_, ?_⟩
    · rw [List.pairwise_cons]
      exact ⟨fun q hq => Or.inl (hbetween.2 q hq), hsp.2.1⟩
    · intro p hp b hb
      rcases List.mem_cons.mp hb with hb | hb
      · subst hb
        exact Or.inl (hbetween.1 p hp)
      · exact hsp.2.2 p hp b hb
  have hcand_perm : (livePairs (crdtInsertChar ops a pos ch)).Perm
      ((livePairs ops).take pos
        ++ (insertIdAt ops a pos, ch) :: (livePairs ops).drop pos) := by
    refine hlive'.trans ?_
    have h1 : ((insertIdAt ops a pos, ch) :: livePairs ops).Perm
        ((insertIdAt ops a pos, ch)
          :: ((livePairs ops).take pos ++ (livePairs ops).drop pos)) := by
      rw [hLsplit]
    exact h1.trans List.perm_middle.symm
  refine ⟨List.eq_of_perm_of_sorted hcand_perm (livePairs_sorted _) hcand_sorted, ?_, ?_⟩
  · -- NodupIds
    unfold NodupIds
    have hmap := hpermdedup.map Prod.fst
    rw [List.Perm.nodup_iff hmap]
    simp only [List.map_cons]
    refine List.nodup_cons.mpr ⟨?_, hN⟩
    intro h
    rcases List.mem_map.mp h with ⟨pr, hpr, hfst⟩
    exact hfreshIns pr (List.mem_dedup.mp hpr) hfst
  · -- ClosedTombs
    intro t ht
    rw [htombs'] at ht
    have := hT t ht
    rw [hins', List.map_append]
    exact List.mem_append.mpr (Or.inl this)

theorem take_len_succ_append (A : List Char) (c : Char) (C : List Char) :
    (A ++ c :: C).take (A.length + 1) = A ++ [c] := by
  rw [List.take_append]
  simp

theorem drop_len_succ_append (A : List Char) (c : Char) (C : List Char) :
    (A ++ c :: C).drop (A.length + 1) = C := by
  rw [List.drop_append]
  simp

theorem branchContent_insertChar (ops : Oplog) (a : String) (pos : Nat) (ch : Char)
    (hWF : WFOplog ops) :
    branchContent (crdtInsertChar ops a pos ch)
      = (branchContent ops).take pos ++ ch :: (branchContent ops).drop pos := by
  have h := (crdtInsertChar_livePairs ops a pos ch hWF).1
  unfold branchContent
  rw [h, List.map_append, List.map_cons, List.map_take, List.map_drop]

theorem crdtInsertText_branch :
    ∀ (text : List Char) (ops : Oplog) (a : String) (pos : Nat),
    WFOplog ops → pos ≤ (branchContent ops).length →
    branchContent (crdtInsertText ops a pos text)
      = (branchContent ops).take pos ++ text ++ (branchContent ops).drop pos ∧
    WFOplog (crdtInsertText ops a pos text) := by
  intro text
  induction text with
  | nil =>
    intro ops a pos hWF hpos
    refine ⟨?_, hWF⟩
    simp [crdtInsertText, List.take_append_drop]
  | cons ch rest ih =>
    intro ops a pos hWF hpos
    have hWF1 := (crdtInsertChar_livePairs ops a pos ch hWF).2
    have hbr1 := branchContent_insertChar ops a pos ch hWF
    have hAlen : ((branchContent ops).take pos).length = pos := by
      rw [List.length_take]
      omega
    have hlen1 : (branchContent (crdtInsertChar ops a pos ch)).length
        = (branchContent ops).length + 1 := by
      rw [hbr1]
      simp only [List.length_append, List.length_cons, List.length_take, List.length_drop]
      omega
    have hrec := ih (crdtInsertChar ops a pos ch) a (pos + 1) hWF1 (by omega)
    have htake := take_len_succ_append ((branchContent ops).take pos) ch
      ((branchContent ops).drop pos)
    have hdrop := drop_len_succ_append ((branchContent ops).take pos) ch
      ((branchContent ops).drop pos)
    rw [hAlen] at htake hdrop
    refine ⟨?_, ?_⟩
    · show branchContent (crdtInsertText (crdtInsertChar ops a pos ch) a (pos + 1) rest) = _
      rw [hrec.1, hbr1, htake, hdrop]
      simp
    · exact hrec.2

theorem livePairs_def (ops : Oplog) :
    livePairs ops = (sortedPairs ops).filter fun p => decide (p.1 ∉ tombs ops) := rfl

/-- Keep the pairs whose identifier is not among the given targets. -/
def keepPred (targets : List CharId) (p : CharId × Char) : Bool := decide (p.1 ∉ targets)

theorem crdtDelete_branch (ops : Oplog) (s e : Nat) (hWF : WFOplog ops) (hse : s ≤ e) :
    branchContent (crdtDelete ops s e)
      = (branchContent ops).take s ++ (branchContent ops).drop e ∧
    WFOplog (crdtDelete ops s e) := by
  obtain ⟨hN, hT⟩ := hWF
  have hins' : insPairs (crdtDelete ops s e) = insPairs ops := by
    unfold crdtDelete
    rw [insPairs_append, insPairs_removes, List.append_nil]
  have htombs' : tombs (crdtDelete ops s e)
      = tombs ops ++ (((livePairs ops).take e).drop s).map Prod.fst := by
    unfold crdtDelete
    rw [tombs_append, tombs_removes]
  have hsorted' : sortedPairs (crdtDelete ops s e) = sortedPairs ops := by
    unfold sortedPairs
    rw [hins']
  have hAB : (livePairs ops).take s ++ ((livePairs ops).take e).drop s
      = (livePairs ops).take e := by
    have h1 : ((livePairs ops).take e).take s = (livePairs ops).take s := by
      rw [List.take_take, min_eq_left hse]
    rw [← h1, List.take_append_drop]
  have hsplit : (livePairs ops).take s
        ++ (((livePairs ops).take e).drop s ++ (livePairs ops).drop e)
      = livePairs ops := by
    rw [← List.append_assoc, hAB, List.take_append_drop]
  have hPid := livePairs_pairwise_idLt ops hN
  have hPsplit := hsplit ▸ hPid
  rw [List.pairwise_append] at hPsplit
  have hPBC := hPsplit.2.1
  rw [List.pairwise_append] at hPBC
  have hlive' : livePairs (crdtDelete ops s e)
      = (livePairs ops).filter
          (keepPred ((((livePairs ops).take e).drop s).map Prod.fst)) := by
    rw [livePairs_def (crdtDelete ops s e), hsorted', htombs',
      livePairs_def ops, List.filter_filter]
    apply List.filter_congr
    intro p _
    simp [keepPred, not_or, Bool.and_comm]
  have hfilterA : ((livePairs ops).take s).filter
      (keepPred ((((livePairs ops).take e).drop s).map Prod.fst))
      = (livePairs ops).take s := by
    rw [List.filter_eq_self]
    intro p hp
    simp only [keepPred, decide_eq_true_eq]
    intro hmem
    rcases List.mem_map.mp hmem with ⟨b, hb, hfst⟩
    have : idLt p.1 b.1 := hPsplit.2.2 p hp b (List.mem_append.mpr (Or.inl hb))
    rw [hfst] at this
    exact idLt_irrefl _ this
  have hfilterB : (((livePairs ops).take e).drop s).filter
      (keepPred ((((livePairs ops).take e).drop s).map Prod.fst)) = [] := by
    rw [List.filter_eq_nil_iff]
    intro p hp
    simp only [keepPred, decide_eq_true_eq, not_not]
    exact List.mem_map.mpr ⟨p, hp, rfl⟩
  have hfilterC : ((livePairs ops).drop e).filter
      (keepPred ((((livePairs ops).take e).drop s).map Prod.fst))
      = (livePairs ops).drop e := by
    rw [List.filter_eq_self]
    intro p hp
    simp only [keepPred, decide_eq_true_eq]
    intro hmem
    rcases List.mem_map.mp hmem with ⟨b, hb, hfst⟩
    have : idLt b.1 p.1 := hPBC.2.2 b hb p hp
    rw [hfst] at this
    exact idLt_irrefl _ this
  set T := (((livePairs ops).take e).drop s).map Prod.fst with hTdef
  refine ⟨?_, ?_, ?_⟩
  · unfold branchContent
    rw [hlive']
    conv_lhs => rw [← hsplit]
    rw [List.filter_append, List.filter_append, hfilterA, hfilterB, hfilterC]
    rw [List.map_append, List.map_append, List.map_take, List.map_drop]
    simp
  · unfold NodupIds
    rw [hins']
    exact hN
  · intro t ht
    rw [htombs'] at ht
    rw [hins']
    rcases List.mem_append.mp ht with ht | ht
    · exact hT t ht
    · rcases List.mem_map.mp ht with ⟨b, hb, hfst⟩
      have hbL : b ∈ livePairs ops := by
        have h0 : b ∈ ((livePairs ops).take e).drop s := hb
        have h1 : b ∈ (livePairs ops).take e := List.mem_of_mem_drop h0
        exact List.mem_of_mem_take h1
      have := (mem_livePairs ops b).mp hbL
      exact hfst ▸ List.mem_map.mpr ⟨b, this.1, rfl⟩

theorem get_offsets_le (rope : List Char) (r : Range) :
    (get_offsets_from_rope rope r).1 ≤ rope.length ∧
    (get_offsets_from_rope rope r).2 ≤ rope.length :=
  ⟨min_le_right _ _, min_le_right _ _⟩

theorem take_left_of_len {α : Type} (A X : List α) (n : Nat) (h : A.length = n) :
    (A ++ X).take n = A := by
  rw [← h]
  exact List.take_left A X

theorem drop_left_of_len {α : Type} (A X : List α) (n : Nat) (h : A.length = n) :
    (A ++ X).drop n = X := by
  rw [← h]
  exact List.drop_left A X

theorem applyLocalStep_DocOK (d : Document) (change : TextDocumentContentChangeEvent)
    (pg : Bool) (rng : Range) (hr : change.range = some rng) (hOK : DocOK d) :
    DocOK ((applyLocalStep d change pg).1) := by
  obtain ⟨hI1, hWF⟩ := hOK
  have hs0 := (get_offsets_le d.content rng).1
  have he0 := (get_offsets_le d.content rng).2
  have hlen : d.content.length = (branchContent d.ops).length := by rw [hI1]
  simp only [applyLocalStep, apply_change_to_rope, hr]
  generalize hse : get_offsets_from_rope d.content rng = se
  rw [hse] at hs0 he0
  obtain ⟨s, e⟩ := se
  simp only at hs0 he0 ⊢
  have hslen : (d.content.take s).length = s := by
    rw [List.length_take]
    omega
  have hBslen : ((branchContent d.ops).take s).length = s := by
    rw [List.length_take]
    omega
  by_cases hlt : s < e
  · rw [if_pos hlt, if_pos hlt]
    have hdel := crdtDelete_branch d.ops s e hWF hlt.le
    have htake1 : (branchContent (crdtDelete d.ops s e)).take s
        = (branchContent d.ops).take s := by
      rw [hdel.1]
      exact take_left_of_len _ _ s hBslen
    have hdrop1 : (branchContent (crdtDelete d.ops s e)).drop s
        = (branchContent d.ops).drop e := by
      rw [hdel.1]
      exact drop_left_of_len _ _ s hBslen
    have hropetake : (d.content.take s ++ d.content.drop e).take s = d.content.take s :=
      take_left_of_len _ _ s hslen
    have hropedrop : (d.content.take s ++ d.content.drop e).drop s = d.content.drop e :=
      drop_left_of_len _ _ s hslen
    by_cases htext : change.text ≠ []
    · rw [if_pos htext, if_pos htext]
      have hlen1 : s ≤ (branchContent (crdtDelete d.ops s e)).length := by
        rw [hdel.1]
        simp only [List.length_append, List.length_take, List.length_drop]
        omega
      have hins := crdtInsertText_branch change.text (crdtDelete d.ops s e) d.agent_id s
        hdel.2 hlen1
      refine ⟨?_, hins.2⟩
      show (d.content.take s ++ d.content.drop e).take s ++ change.text
          ++ (d.content.take s ++ d.content.drop e).drop s = _
      rw [hropetake, hropedrop, hins.1, htake1, hdrop1, hI1]
    · rw [if_neg htext, if_neg htext]
      refine ⟨?_, hdel.2⟩
      show d.content.take s ++ d.content.drop e = _
      rw [hdel.1, hI1]
  · rw [if_neg hlt, if_neg hlt]
    by_cases htext : change.text ≠ []
    · rw [if_pos htext, if_pos htext]
      have hins := crdtInsertText_branch change.text d.ops d.agent_id s hWF (by omega)
      refine ⟨?_, hins.2⟩
      show d.content.take s ++ change.text ++ d.content.drop s = _
      rw [hins.1, hI1]
    · rw [if_neg htext, if_neg htext]
      exact ⟨hI1, hWF⟩

theorem applyLocalLoop_DocOK :
    ∀ (cs : List TextDocumentContentChangeEvent) (d : Document) (pg : Bool),
    DocOK d → (∀ c ∈ cs, c.range.isSome) → DocOK ((applyLocalLoop d cs pg).1) := by
  intro cs
  induction cs with
  | nil => intro d pg hOK _; exact hOK
  | cons c rest ih =>
    intro d pg hOK hall
    have hc := hall c (List.mem_cons_self c rest)
    rcases Option.isSome_iff_exists.mp hc with ⟨rng, hrng⟩
    simp only [applyLocalLoop]
    exact ih _ _ (applyLocalStep_DocOK d c pg rng hrng hOK)
      fun x hx => hall x (List.mem_cons_of_mem c hx)

theorem apply_local_changes_DocOK (d : Document)
    (cs : List TextDocumentContentChangeEvent) (hOK : DocOK d)
    (hall : ∀ c ∈ cs, c.range.isSome) : DocOK ((d.apply_local_changes cs).1) := by
  simp only [Document.apply_local_changes]
  by_cases hp : 0 < d.pending_remote_updates
  · rw [if_pos hp]
    exact hOK
  · rw [if_neg hp]
    cases hres : (applyLocalLoop d cs false).2 with
    | false =>
      simp only [Bool.false_eq_true, if_false]
      exact applyLocalLoop_DocOK cs d false hOK hall
    | true =>
      simp only [if_true]
      exact applyLocalLoop_DocOK cs d false hOK hall

theorem apply_remote_patch_DocOK (d : Document) (patch : PatchBytes) (hOK : DocOK d)
    (hWFm : ∀ P, patch = some P → WFOplog (mergeOps d.ops P)) :
    DocOK ((d.apply_remote_patch patch).1) := by
  cases patch with
  | none => exact hOK
  | some P =>
    simp only [Document.apply_remote_patch]
    split_ifs <;> exact ⟨rfl, hWFm P rfl⟩

theorem WFOplog_nil : WFOplog [] := by
  refine ⟨?_, ?_⟩
  · simp [NodupIds, insPairs]
  · intro t ht
    simp [tombs] at ht

theorem Document_new_DocOK (uri : String) (initial : List Char) (agent : String) :
    DocOK (Document.new uri initial agent) := by
  unfold Document.new
  by_cases h : initial = []
  · rw [if_pos h]
    subst h
    exact ⟨rfl, WFOplog_nil⟩
  · rw [if_neg h]
    have hbc : branchContent ([] : Oplog) = [] := rfl
    have hseed := crdtInsertText_branch initial [] "init" 0 WFOplog_nil (by rw [hbc]; simp)
    refine ⟨?_, hseed.2⟩
    show initial = _
    rw [hseed.1, hbc]
    simp

/-! ## Event runs over a Document -/

/-- A synchronization event on one Document: a local editor change batch or
an incoming remote patch. -/
inductive SyncEvent where
  | localEdit (changes : List TextDocumentContentChangeEvent)
  | remotePatch (patch : PatchBytes)
deriving Repr

/-- The state transition of one event (the Document part of the call). -/
def runEvent (d : Document) : SyncEvent → Document
  | SyncEvent.localEdit cs => (d.apply_local_changes cs).1
  | SyncEvent.remotePatch p => (d.apply_remote_patch p).1

/-- Run a sequence of events. -/
def runEvents (d : Document) (evs : List SyncEvent) : Document :=
  evs.foldl runEvent d

/-- Admissibility of one event against the current state: local change
batches carry ranges (the full-replacement escape hatch is excluded), and a
decodable remote patch merges into a well-formed operation set — which
diamond-types guarantees for patches produced by well-behaved peers. -/
def eventOK (d : Document) : SyncEvent → Prop
  | SyncEvent.localEdit cs => ∀ c ∈ cs, c.range.isSome
  | SyncEvent.remotePatch p => ∀ P, p = some P → WFOplog (mergeOps d.ops P)

/-- Admissibility of a whole event sequence. -/
def ValidRun : Document → List SyncEvent → Prop
  | _, [] => True
  | d, e :: rest => eventOK d e ∧ ValidRun (runEvent d e) rest

theorem runEvents_DocOK :
    ∀ (evs : List SyncEvent) (d : Document), DocOK d → ValidRun d evs →
    DocOK (runEvents d evs) := by
  intro evs
  induction evs with
  | nil => intro d hOK _; exact hOK
  | cons e rest ih =>
    intro d hOK hrun
    obtain ⟨hev, hrest⟩ := hrun
    refine ih (runEvent d e) ?_ hrest
    cases e with
    | localEdit cs => exact apply_local_changes_DocOK d cs hOK hev
    | remotePatch p => exact apply_remote_patch_DocOK d p hOK hev

/-- C5 (amended). Starting from `Document::new` with any initial content,
after any admissible sequence of `apply_local_changes` and
`apply_remote_patch` calls — every local change event carries a range, and
every decodable remote patch merges into a well-formed operation set — the
string held by the content view equals the CRDT branch content. -/
theorem C5_mirror_invariant (uri : String) (initial : List Char) (agent : String)
    (evs : List SyncEvent)
    (hrun : ValidRun (Document.new uri initial agent) evs) :
    (runEvents (Document.new uri initial agent) evs).content
      = branchContent (runEvents (Document.new uri initial agent) evs).ops :=
  (runEvents_DocOK evs (Document.new uri initial agent)
    (Document_new_DocOK uri initial agent) hrun).1

/-- C5 counterexample. As literally stated the invariant fails: a single
full-text-replacement change event (no range) resets the content view but
leaves the CRDT log untouched, so the view and the branch content differ. -/
theorem C5_mirror_counterexample :
    (runEvents (Document.new "u" ['A'] "x")
        [SyncEvent.localEdit [{ range := none, text := ['B'] }]]).content
      ≠ branchContent (runEvents (Document.new "u" ['A'] "x")
        [SyncEvent.localEdit [{ range := none, text := ['B'] }]]).ops := by
  decide

theorem C5_mirror_invariant_witness :
    ValidRun (Document.new "u" ['A', 'b'] "x")
        [SyncEvent.localEdit
            [{ range := some { start := ⟨0, 1⟩, «end» := ⟨0, 2⟩ }, text := ['C'] }],
          SyncEvent.remotePatch (some [])] ∧
    (runEvents (Document.new "u" ['A', 'b'] "x")
        [SyncEvent.localEdit
            [{ range := some { start := ⟨0, 1⟩, «end» := ⟨0, 2⟩ }, text := ['C'] }],
          SyncEvent.remotePatch (some [])]).content
      = branchContent (runEvents (Document.new "u" ['A', 'b'] "x")
        [SyncEvent.localEdit
            [{ range := some { start := ⟨0, 1⟩, «end» := ⟨0, 2⟩ }, text := ['C'] }],
          SyncEvent.remotePatch (some [])]).ops := by
  have hrun : ValidRun (Document.new "u" ['A', 'b'] "x")
      [SyncEvent.localEdit
          [{ range := some { start := ⟨0, 1⟩, «end» := ⟨0, 2⟩ }, text := ['C'] }],
        SyncEvent.remotePatch (some [])] := by
    refine ⟨?_, ?_, trivial⟩
    · intro c hc
      simp at hc
      rw [hc]
      rfl
    · intro P hP
      cases hP
      decide
  exact ⟨hrun, C5_mirror_invariant "u" ['A', 'b'] "x" _ hrun⟩

/-- C7 counterexample. Columns are not clamped to their line's length: on
the rope `"ab\ncd"` (line 0 holds characters 0..2), the range
`(0,4)-(0,10)` resolves to absolute offsets `(4, 5)` — the clamp is against
the whole rope length, so the edit escapes line 0 and deletes the final
character of line 1, leaving `"ab\nc"` instead of an edit confined to
line 0. -/
theorem C7_clamp_counterexample :
    get_offsets_from_rope "ab\ncd".data
        { start := ⟨0, 4⟩, «end» := ⟨0, 10⟩ } = (4, 5) ∧
    lineToChar "ab\ncd".data 1 = 3 ∧
    (((Document.new "c" "ab\ncd".data "A").apply_local_changes
        [{ range := some { start := ⟨0, 4⟩, «end» := ⟨0, 10⟩ }, text := [] }]).1).content
      = "ab\nc".data := by
  refine ⟨by decide, by decide, by decide⟩

/-- C7 (amended). `apply_local_changes` never panics on any line/column
input and does not corrupt the Document: line indices are clamped to the
last line, the resulting absolute character offsets are clamped to the
rope length (columns past the end of a line may therefore spill into the
following lines), inverted ranges skip the delete while still performing
the insert, and the content/CRDT mirror invariant is preserved for every
ranged change batch. -/
theorem C7_position_safety (rope : List Char) (r : Range) (d : Document)
    (changes : List TextDocumentContentChangeEvent) (hOK : DocOK d)
    (hall : ∀ c ∈ changes, c.range.isSome) :
    (get_offsets_from_rope rope r).1 ≤ lenChars rope ∧
    (get_offsets_from_rope rope r).2 ≤ lenChars rope ∧
    min r.start.line (lenLines rope - 1) < lenLines rope ∧
    min r.«end».line (lenLines rope - 1) < lenLines rope ∧
    DocOK ((d.apply_local_changes changes).1) := by
  have hpos : 0 < lenLines rope := Nat.succ_pos _
  refine ⟨(get_offsets_le rope r).1, (get_offsets_le rope r).2, ?_, ?_,
    apply_local_changes_DocOK d changes hOK hall⟩
  · exact lt_of_le_of_lt (min_le_right _ _) (Nat.sub_lt hpos Nat.one_pos)
  · exact lt_of_le_of_lt (min_le_right _ _) (Nat.sub_lt hpos Nat.one_pos)

def c7chg : TextDocumentContentChangeEvent :=
  { range := some { start := ⟨9, 9⟩, «end» := ⟨0, 0⟩ }, text := ['Z'] }

theorem C7_position_safety_witness :
    (DocOK (Document.new "w" ['A'] "x") ∧ (∀ c ∈ [c7chg], c.range.isSome)) ∧
    ((get_offsets_from_rope ['A'] { start := ⟨9, 9⟩, «end» := ⟨0, 0⟩ }).1
        ≤ lenChars ['A'] ∧
      DocOK (((Document.new "w" ['A'] "x").apply_local_changes [c7chg]).1)) := by
  have h := C7_position_safety ['A'] { start := ⟨9, 9⟩, «end» := ⟨0, 0⟩ }
    (Document.new "w" ['A'] "x") [c7chg] (by decide) (by decide)
  exact ⟨⟨by decide, by decide⟩, h.1, h.2.2.2.2⟩
